/-
Verification of the markdown-to-speech backend (`eng_hi_speech`):
a shallow embedding in Lean 4 of the markdown chunker
(`services/markdown_parser.py`) and of the TTS generation orchestrator /
exporter (`services/tts_service.py`), together with proofs of the
specified invariants and scenarios.

Text is modelled as `List Char`.  Python regular-expression operations are
embedded as executable scanning functions that implement the concrete
patterns compiled in `MarkdownParser.__init__`.  The generation
orchestrator's network and clock effects are abstracted as oracle
parameters; everything else is translated directly from the source.
-/
import Mathlib

set_option maxHeartbeats 1600000

namespace SarvamTTS

/-! ### Character classes

`isWs` models Python's `\s` / `str.strip()` on the ASCII whitespace
characters (space, tab, newline, carriage return, vertical tab, form feed).

The sentence-terminator class in `_split_into_sentences` is compiled from
the literal pattern bytes in the source file, which contain `[.!?ред]`:
the three Cyrillic letters U+0440, U+0435, U+0434 (a mojibake rendering of
the Devanagari danda), not U+0964 itself. -/

def isWs (c : Char) : Bool :=
  c = ' ' || c = '\t' || c = '\n' || c = '\r' || c = Char.ofNat 11 || c = Char.ofNat 12

def cyrR : Char := Char.ofNat 1088
def cyrE : Char := Char.ofNat 1077
def cyrD : Char := Char.ofNat 1076

def isTerm (c : Char) : Bool :=
  c = '.' || c = '!' || c = '?' || c = cyrR || c = cyrE || c = cyrD

def backtick : Char := Char.ofNat 96

/-- Python `str.strip()`: drop leading and trailing whitespace. -/
def strip (l : List Char) : List Char :=
  ((l.dropWhile isWs).reverse.dropWhile isWs).reverse

/-- Python `str.split('\n')`. -/
def splitLines : List Char → List (List Char)
  | [] => [[]]
  | c :: rest =>
    if c = '\n' then [] :: splitLines rest
    else
      match splitLines rest with
      | [] => [[c]]
      | l :: ls => (c :: l) :: ls

/-- Python `'\n'.join(...)`. -/
def joinLines : List (List Char) → List Char
  | [] => []
  | [l] => l
  | l :: ls => l ++ '\n' :: joinLines ls

/-- Python `' '.join(...)`. -/
def joinSp : List (List Char) → List Char
  | [] => []
  | [l] => l
  | l :: ls => l ++ ' ' :: joinSp ls

/-! ### The data model (`models/schemas.py`) -/

inductive ChunkType where
  | h1 | h2 | h3 | paragraph | bullet | code | blockquote
deriving DecidableEq, Repr

/-- The `.value` string of the `ChunkType` enum (pydantic `use_enum_values`). -/
def ChunkType.value : ChunkType → List Char
  | .h1 => ['h', '1']
  | .h2 => ['h', '2']
  | .h3 => ['h', '3']
  | .paragraph => "paragraph".toList
  | .bullet => "bullet".toList
  | .code => "code".toList
  | .blockquote => "blockquote".toList

structure ContentChunk where
  id : Nat
  type : ChunkType
  text : List Char
  raw_text : List Char
  char_count : Nat
  pause_after_ms : Nat
  loudness_boost : ℚ
deriving DecidableEq, Repr

/-- The configured per-type prosody values (`config.Settings`). -/
structure ParserSettings where
  pause_after_h1_ms : Nat := 800
  pause_after_h2_ms : Nat := 600
  pause_after_h3_ms : Nat := 400
  pause_after_paragraph_ms : Nat := 300
  pause_after_bullet_ms : Nat := 200
  heading_h1_loudness_boost : ℚ := 13/10
  heading_h2_loudness_boost : ℚ := 12/10
  heading_h3_loudness_boost : ℚ := 11/10
deriving Repr

end SarvamTTS

namespace SarvamTTS

/-! ### TTS service data model (`services/tts_service.py`) -/

structure TTSSettings where
  target_language_code : String := "hi-IN"
  speaker : String := "shubh"
  pace : ℚ := 11/10
  speech_sample_rate : Nat := 48000
  model : String := "bulbul:v3"
  temperature : ℚ := 6/10
  enable_preprocessing : Bool := true
deriving DecidableEq, Repr

structure TTSChunkResult where
  chunk_id : Nat
  success : Bool
  audio_base64 : Option (List Char) := none
  duration_ms : Option Nat := none
  error : Option String := none
deriving DecidableEq, Repr

structure APICallStats where
  chunk_id : Nat
  characters_sent : Nat
  bytes_sent : Nat
  bytes_received : Nat
  duration_ms : Nat
  success : Bool
  error : Option String := none
deriving DecidableEq, Repr

inductive JobStatus where
  | processing | completed | failed
deriving DecidableEq, Repr

structure GenerateTTSResponse where
  job_id : String
  filename : String
  total_chunks : Nat
  completed_chunks : Nat
  status : JobStatus
  results : List TTSChunkResult
deriving DecidableEq, Repr

/-- `TTSService.is_configured`: `bool(self.api_key and self.api_key != "your-api-key-here")`. -/
def isConfigured (apiKey : String) : Bool :=
  apiKey ≠ "" && apiKey != "your-api-key-here"

/-- The JSON payload built for one synthesis call.  For heading chunks the
pace is reduced by 0.1 and floored at 0.9 (`chunk_type.startswith('h')`). -/
structure SynthPayload where
  text : List Char
  target_language_code : String
  speaker : String
  pace : ℚ
  speech_sample_rate : Nat
  enable_preprocessing : Bool
  model : String
deriving DecidableEq, Repr

/-- `chunk_type.startswith('h')` on the enum's `.value` string. -/
def startsWithH (t : ChunkType) : Bool :=
  match t.value with
  | c :: _ => c = 'h'
  | [] => false

def buildPayload (chunk : ContentChunk) (settings : TTSSettings) : SynthPayload :=
  let pace := if startsWithH chunk.type then max (9/10 : ℚ) (settings.pace - 1/10)
              else settings.pace
  { text := chunk.text
    target_language_code := settings.target_language_code
    speaker := settings.speaker
    pace := pace
    speech_sample_rate := settings.speech_sample_rate
    enable_preprocessing := settings.enable_preprocessing
    model := settings.model }

/-- Outcome of one `client.post` to the synthesis endpoint, as observed by
`_process_chunk_with_stats`: an HTTP status error, a 2xx response whose JSON
carries an optional first audio payload, or a transport-level exception.
`durationMs` abstracts the wall-clock measurement, `respBytes` the length of
`response.content`. -/
inductive NetOutcome where
  | httpError (status : Nat) (bodyText : String) (respBytes : Nat) (durationMs : Nat)
  | ok (firstAudio : Option (List Char)) (respBytes : Nat) (durationMs : Nat)
  | exn (message : String) (durationMs : Nat)
deriving DecidableEq, Repr

/-- Length in bytes of the base64-decoded audio; abstract (the claims never
evaluate it on real payloads). -/
def decodedLen (audioB64 : List Char) : Nat := audioB64.length * 3 / 4

/-- Length of `json.dumps(payload).encode('utf-8')`; abstracted as a
parameter of the service model. -/
structure NetModel where
  send : SynthPayload → NetOutcome
  payloadBytes : SynthPayload → Nat

/-- `TTSService._process_chunk_with_stats`, with the request actually
issued (if any) returned as the third component so that "no network call"
is observable. -/
def processChunkWithStats (apiKey : String) (net : NetModel)
    (chunk : ContentChunk) (settings : TTSSettings) :
    TTSChunkResult × APICallStats × List SynthPayload :=
  if ¬ isConfigured apiKey then
    ({ chunk_id := chunk.id
       success := false
       error := some "Sarvam AI API key not configured" },
     { chunk_id := chunk.id
       characters_sent := chunk.text.length
       bytes_sent := 0
       bytes_received := 0
       duration_ms := 0
       success := false
       error := some "API key not configured" },
     [])
  else
    let payload := buildPayload chunk settings
    let bytesSent := net.payloadBytes payload
    match net.send payload with
    | .httpError status bodyText respBytes durationMs =>
      let errorMsg := "API error: " ++ toString status ++ " - " ++ bodyText
      ({ chunk_id := chunk.id, success := false, error := some errorMsg },
       { chunk_id := chunk.id
         characters_sent := chunk.text.length
         bytes_sent := bytesSent
         bytes_received := respBytes
         duration_ms := durationMs
         success := false
         error := some errorMsg },
       [payload])
    | .ok none respBytes durationMs =>
      ({ chunk_id := chunk.id, success := false, error := some "No audio in response" },
       { chunk_id := chunk.id
         characters_sent := chunk.text.length
         bytes_sent := bytesSent
         bytes_received := respBytes
         duration_ms := durationMs
         success := false
         error := some "No audio in response" },
       [payload])
    | .ok (some audio) respBytes durationMs =>
      ({ chunk_id := chunk.id
         success := true
         audio_base64 := some audio
         duration_ms := some (decodedLen audio / 96) },
       { chunk_id := chunk.id
         characters_sent := chunk.text.length
         bytes_sent := bytesSent
         bytes_received := respBytes
         duration_ms := durationMs
         success := true },
       [payload])
    | .exn message durationMs =>
      ({ chunk_id := chunk.id, success := false, error := some message },
       { chunk_id := chunk.id
         characters_sent := chunk.text.length
         bytes_sent := bytesSent
         bytes_received := 0
         duration_ms := durationMs
         success := false
         error := some message },
       [payload])

/-! ### The generation orchestrator (`generate_tts_for_document`) -/

/-- `if chunk_ids: chunks = [c for c in chunks if c.id in chunk_ids]`.
Python truthiness: both `None` and the empty list leave all chunks. -/
def resolveChunks (chunks : List ContentChunk) (chunkIds : Option (List Nat)) :
    List ContentChunk :=
  match chunkIds with
  | none => chunks
  | some ids => if ids.isEmpty then chunks else chunks.filter (fun c => c.id ∈ ids)

/-- Per-iteration mutable state of one job: the response object plus the
audio cache and call-stat log entries for this `job_id`. -/
structure JobState where
  response : GenerateTTSResponse
  audioCache : List (Nat × List Char)
  apiStats : List APICallStats
deriving Repr

/-- One iteration of the `for i, chunk in enumerate(chunks)` loop body.
The `try` body never raises in this model (exceptions of the adapter are
already captured inside `processChunkWithStats`), so only the non-except
path is reachable; both paths increment `completed_chunks` identically. -/
def processOneChunk (apiKey : String) (net : NetModel) (settings : TTSSettings)
    (st : JobState) (chunk : ContentChunk) : JobState :=
  let outcome := processChunkWithStats apiKey net chunk settings
  let result := outcome.1
  let stats := outcome.2.1
  let resp := st.response
  let resp := { resp with results := resp.results ++ [result] }
  let cache :=
    if result.success then
      match result.audio_base64 with
      | some audio => st.audioCache ++ [(chunk.id, audio)]
      | none => st.audioCache
    else st.audioCache
  let resp := { resp with completed_chunks := resp.completed_chunks + 1 }
  { response := resp, audioCache := cache, apiStats := st.apiStats ++ [stats] }

/-- The chunk loop, returning the final state and the snapshot emitted
after each chunk (the value of the response object at each `yield`). -/
def ttsLoop (apiKey : String) (net : NetModel) (settings : TTSSettings) :
    JobState → List ContentChunk → JobState × List GenerateTTSResponse
  | st, [] => (st, [])
  | st, chunk :: rest =>
    let st' := processOneChunk apiKey net settings st chunk
    let r := ttsLoop apiKey net settings st' rest
    (r.1, st'.response :: r.2)

/-- `generate_tts_for_document`: resolves the chunk list, emits the initial
snapshot, runs the loop emitting one snapshot per chunk, then marks the job
completed and emits the final snapshot.  Returns the full emission sequence. -/
def generateTTSForDocument (apiKey : String) (net : NetModel)
    (jobId filename : String) (docChunks : List ContentChunk)
    (settings : TTSSettings) (chunkIds : Option (List Nat)) :
    List GenerateTTSResponse :=
  let chunks := resolveChunks docChunks chunkIds
  let response : GenerateTTSResponse :=
    { job_id := jobId
      filename := filename
      total_chunks := chunks.length
      completed_chunks := 0
      status := .processing
      results := [] }
  let st0 : JobState := { response := response, audioCache := [], apiStats := [] }
  let r := ttsLoop apiKey net settings st0 chunks
  let finalResp := { r.1.response with status := JobStatus.completed }
  response :: r.2 ++ [finalResp]

/-! ### The audio exporter (`export_audio`) -/

inductive ExportError where
  | notFound (jobId : String)
  | empty
deriving DecidableEq, Repr

/-- Abstract audio assembly operations (pydub); the export failure claims
never inspect them. -/
structure AudioModel where
  Audio : Type
  emptyAudio : Audio
  decode : List Char → Audio
  gain : Audio → ℚ → Audio
  append : Audio → Audio → Audio
  silent : Nat → Audio
  durationMs : Audio → Nat
  encodedSize : Audio → String → Nat

/-- One fragment-concatenation step of `export_audio`. -/
def exportStep (am : AudioModel) (chunkLookup : Nat → Option ContentChunk)
    (combined : am.Audio) (seg : Nat × List Char) : am.Audio :=
  let segment := am.decode seg.2
  let segment :=
    match chunkLookup seg.1 with
    | some chunk =>
      if 1 < chunk.loudness_boost then am.gain segment (20 * (chunk.loudness_boost - 1))
      else segment
    | none => segment
  let combined := am.append combined segment
  match chunkLookup seg.1 with
  | some chunk =>
    if 0 < chunk.pause_after_ms then am.append combined (am.silent chunk.pause_after_ms)
    else combined
  | none => combined

/-- `TTSService.export_audio`.  The audio cache is modelled as the partial
map `job_id -> fragments`; the second component of the result is the list
of files written (empty on the failure paths).  The function reads but
never writes the cache, matching the source, so cache and job state are
unchanged whenever it returns. -/
def exportAudio (am : AudioModel) (cache : String → Option (List (Nat × List Char)))
    (jobId : String) (docChunks : List ContentChunk) (outputFilename : String)
    (format : String) :
    Except ExportError (String × Nat × ℚ) × List String :=
  match cache jobId with
  | none => (.error (.notFound jobId), [])
  | some audioSegments =>
    if audioSegments.isEmpty then (.error .empty, [])
    else
      let lookup := fun cid => docChunks.find? (fun c => c.id = cid)
      let sorted := audioSegments.mergeSort (fun a b => a.1 ≤ b.1)
      let combined := sorted.foldl (exportStep am lookup) am.emptyAudio
      let fileSize := am.encodedSize combined format
      let durationSeconds : ℚ := (am.durationMs combined : ℚ) / 1000
      (.ok (outputFilename, fileSize, durationSeconds), [outputFilename])

end SarvamTTS

namespace SarvamTTS

/-! ### The text normalizer (`MarkdownParser._clean_for_tts`)

Each Python `re.sub` call is embedded as a left-to-right scanner: at each
position it tries the compiled pattern; on a match it emits the replacement
and resumes after the match, otherwise it emits one character and advances.
The character classes of the patterns (`[^*]+`, `[^\]]+`, …) are blocked at
their terminating literal, so the greedy scan needs no backtracking. -/

/-- `re.sub(r'\*\*([^*]+)\*\*', r'\1', text)`. -/
def boldSub (l : List Char) : List Char :=
  match l with
  | [] => []
  | c :: rest =>
    if c = '*' ∧ rest.take 1 = ['*'] then
      let inner := rest.tail.takeWhile (fun d => d ≠ '*')
      if inner ≠ [] ∧ (rest.tail.drop inner.length).take 2 = ['*', '*'] then
        inner ++ boldSub ((rest.tail.drop inner.length).drop 2)
      else c :: boldSub rest
    else c :: boldSub rest
termination_by l.length
decreasing_by all_goals simp <;> omega

/-- `re.sub(r'\*([^*]+)\*', r'\1', text)`. -/
def italicSub (l : List Char) : List Char :=
  match l with
  | [] => []
  | c :: rest =>
    if c = '*' then
      let inner := rest.takeWhile (fun d => d ≠ '*')
      if inner ≠ [] ∧ (rest.drop inner.length).take 1 = ['*'] then
        inner ++ italicSub ((rest.drop inner.length).drop 1)
      else c :: italicSub rest
    else c :: italicSub rest
termination_by l.length
decreasing_by all_goals simp <;> omega

/-- `re.sub(r'\[([^\]]+)\]\([^)]+\)', r'\1', text)`. -/
def linkSub (l : List Char) : List Char :=
  match l with
  | [] => []
  | c :: rest =>
    if c = '[' then
      let txt := rest.takeWhile (fun d => d ≠ ']')
      let r1 := rest.drop txt.length
      let url := (r1.drop 2).takeWhile (fun d => d ≠ ')')
      let r2 := (r1.drop 2).drop url.length
      if txt ≠ [] ∧ r1.take 2 = [']', '('] ∧ url ≠ [] ∧ r2.take 1 = [')'] then
        txt ++ linkSub (r2.drop 1)
      else c :: linkSub rest
    else c :: linkSub rest
termination_by l.length
decreasing_by all_goals simp <;> omega

/-- `re.sub(r'!\[([^\]]*)\]\([^)]+\)', lambda m: m.group(1) if m.group(1) else '', text)`.
The replacement is `group(1)` (the alt text) in both arms of the lambda. -/
def imageSub (l : List Char) : List Char :=
  match l with
  | [] => []
  | c :: rest =>
    if c = '!' ∧ rest.take 1 = ['['] then
      let alt := rest.tail.takeWhile (fun d => d ≠ ']')
      let r1 := rest.tail.drop alt.length
      let url := (r1.drop 2).takeWhile (fun d => d ≠ ')')
      let r2 := (r1.drop 2).drop url.length
      if r1.take 2 = [']', '('] ∧ url ≠ [] ∧ r2.take 1 = [')'] then
        alt ++ imageSub (r2.drop 1)
      else c :: imageSub rest
    else c :: imageSub rest
termination_by l.length
decreasing_by all_goals simp <;> omega

/-- Inline code: ``re.sub(r'`[^`]+`', lambda m: m.group(0)[1:-1], text)``. -/
def codeSpanSub (l : List Char) : List Char :=
  match l with
  | [] => []
  | c :: rest =>
    if c = backtick then
      let inner := rest.takeWhile (fun d => d ≠ backtick)
      if inner ≠ [] ∧ (rest.drop inner.length).take 1 = [backtick] then
        inner ++ codeSpanSub ((rest.drop inner.length).drop 1)
      else c :: codeSpanSub rest
    else c :: codeSpanSub rest
termination_by l.length
decreasing_by all_goals simp <;> omega

/-- A line matched in full by `^---+$|^\*\*\*+$|^___+$`. -/
def isHrLine (l : List Char) : Bool :=
  decide (3 ≤ l.length) &&
    (l.all (fun c => c = '-') || l.all (fun c => c = '*') || l.all (fun c => c = '_'))

/-- `re.sub` of the horizontal-rule pattern (MULTILINE, both ends anchored):
a match is exactly a full line, so the substitution empties those lines and
keeps the newlines. -/
def hrSub (l : List Char) : List Char :=
  joinLines ((splitLines l).map (fun line => if isHrLine line then [] else line))

/-- `re.sub(r'\s+', ' ', text)`. -/
def collapseWs (l : List Char) : List Char :=
  match l with
  | [] => []
  | c :: rest =>
    if isWs c then ' ' :: collapseWs (rest.drop (rest.takeWhile isWs).length)
    else c :: collapseWs rest
termination_by l.length
decreasing_by all_goals simp <;> omega

/-- `text.replace('\\', '')`. -/
def stripBackslash (l : List Char) : List Char :=
  l.filter (fun c => c ≠ '\\')

/-- `MarkdownParser._clean_for_tts`, applying the substitutions in source
order: bold, italic, link, image (after links!), inline code, horizontal
rules, whitespace collapse, backslash removal, final strip. -/
def cleanForTTS (text : List Char) : List Char :=
  strip (stripBackslash (collapseWs (hrSub
    (codeSpanSub (imageSub (linkSub (italicSub (boldSub text))))))))

/-! ### Block splitting (`MarkdownParser._parse_content`) -/

/-- Index of the first occurrence of three consecutive backticks. -/
def findTriple (l : List Char) : Option Nat :=
  match l with
  | c1 :: c2 :: c3 :: rest =>
    if c1 = backtick ∧ c2 = backtick ∧ c3 = backtick then some 0
    else (findTriple (c2 :: c3 :: rest)).map (· + 1)
  | _ => none
termination_by l.length
decreasing_by simp

/-- `self.patterns['code_block'].sub('[Code block skipped]', content)` for
the non-greedy pattern ```` ```[\s\S]*?``` ````: each match runs from a
triple backtick to the closest following triple backtick. -/
def codeBlockSub (l : List Char) : List Char :=
  match l with
  | [] => []
  | c :: rest =>
    if c = backtick ∧ rest.take 2 = [backtick, backtick] then
      match findTriple (rest.drop 2) with
      | some k => "[Code block skipped]".toList ++ codeBlockSub ((rest.drop 2).drop (k + 3))
      | none => c :: codeBlockSub rest
    else c :: codeBlockSub rest
termination_by l.length
decreasing_by all_goals simp <;> omega

/-- `re.split(r'\n\s*\n', content)`: a match starts at a newline whose
following maximal whitespace run contains another newline and (because the
greedy `\s*` must still be followed by `\n`) ends after the last newline of
that run; the split therefore resumes `run.length - tailLen` characters
further on, where `tailLen` is the run's trailing newline-free part. -/
def splitBlocksAux (acc : List Char) (l : List Char) : List (List Char) :=
  match l with
  | [] => [acc.reverse]
  | c :: rest =>
    if c = '\n' then
      let run := rest.takeWhile isWs
      if '\n' ∈ run then
        let dropCount := run.length - (run.reverse.takeWhile (fun d => d ≠ '\n')).length
        acc.reverse :: splitBlocksAux [] (rest.drop dropCount)
      else splitBlocksAux (c :: acc) rest
    else splitBlocksAux (c :: acc) rest
termination_by l.length
decreasing_by all_goals simp <;> omega

def splitBlocks (l : List Char) : List (List Char) := splitBlocksAux [] l

/-! ### Sentence splitting and paragraph chunking -/

/-- `re.split(r'(?<=[.!?ред])\s+', text)`: split after a terminator that is
followed by whitespace, the greedy `\s+` consuming the whole whitespace
run. -/
def splitRaw (acc : List Char) (l : List Char) : List (List Char) :=
  match l with
  | [] => [acc.reverse]
  | c :: rest =>
    if isTerm c ∧ rest.takeWhile isWs ≠ [] then
      (acc.reverse ++ [c]) :: splitRaw [] (rest.drop (rest.takeWhile isWs).length)
    else splitRaw (c :: acc) rest
termination_by l.length
decreasing_by all_goals simp <;> omega

/-- `MarkdownParser._split_into_sentences`. -/
def splitIntoSentences (l : List Char) : List (List Char) :=
  ((splitRaw [] l).map strip).filter (fun s => s ≠ [])

/-- The `for i in range(0, len(sentence), self.max_chunk_size)` slices. -/
def hardSlices (maxSize : Nat) (s : List Char) : List (List Char) :=
  if maxSize = 0 then []
  else if s.length ≤ maxSize then (if s.isEmpty then [] else [s])
  else s.take maxSize :: hardSlices maxSize (s.drop maxSize)
termination_by s.length
decreasing_by simp; omega

def mkParagraphChunk (ps : ParserSettings) (cid : Nat) (text raw : List Char) :
    ContentChunk :=
  { id := cid, type := .paragraph, text := text, raw_text := raw,
    char_count := text.length, pause_after_ms := ps.pause_after_paragraph_ms,
    loudness_boost := 1 }

/-- The inner hard-split loop of `_create_paragraph_chunks`: one PARAGRAPH
chunk per slice, ids assigned sequentially. -/
def chunksFromSlices (ps : ParserSettings) : Nat → List (List Char) → List ContentChunk
  | _, [] => []
  | cid, t :: ts => mkParagraphChunk ps cid t t :: chunksFromSlices ps (cid + 1) ts

/-- The sentence-packing loop of `_create_paragraph_chunks` (source lines
299–364): state is the next chunk id and the running buffer
`current_chunk`; emits a flush whenever appending the next sentence would
exceed `max_chunk_size`, hard-splitting single oversized sentences. -/
def packChunks (ps : ParserSettings) (maxSize : Nat) :
    Nat → List Char → List (List Char) → List ContentChunk
  | cid, cur, [] =>
    if strip cur = [] then [] else [mkParagraphChunk ps cid (strip cur) (strip cur)]
  | cid, cur, s :: rest =>
    let s' := strip s
    if s' = [] then packChunks ps maxSize cid cur rest
    else if maxSize < s'.length then
      let flush :=
        if cur = [] then [] else [mkParagraphChunk ps cid (strip cur) (strip cur)]
      let slices := hardSlices maxSize s'
      flush ++ chunksFromSlices ps (cid + flush.length) slices
        ++ packChunks ps maxSize (cid + flush.length + slices.length) [] rest
    else
      let test := strip (cur ++ ' ' :: s')
      if maxSize < test.length then
        if cur = [] then packChunks ps maxSize cid s' rest
        else mkParagraphChunk ps cid (strip cur) (strip cur)
          :: packChunks ps maxSize (cid + 1) s' rest
      else packChunks ps maxSize cid test rest

/-- `MarkdownParser._create_paragraph_chunks`. -/
def createParagraphChunks (ps : ParserSettings) (maxSize : Nat) (startId : Nat)
    (text raw : List Char) : List ContentChunk :=
  if text.length ≤ maxSize then
    [{ id := startId, type := .paragraph, text := text, raw_text := raw,
       char_count := text.length, pause_after_ms := ps.pause_after_paragraph_ms,
       loudness_boost := 1 }]
  else packChunks ps maxSize startId [] (splitIntoSentences text)

/-! ### Block classification (`MarkdownParser._process_block`)

The heading / bullet / numbered / blockquote patterns all have the shape
`marker` + `\s+(.+)$` (MULTILINE).  After the marker, the greedy `\s+` may
consume newlines and `(.+)` then captures the rest of the current line.
Blocks reaching `_process_block` are stripped and non-empty (see
`_parse_content`), so their last character is not whitespace and the
greedy match needs no backtracking. -/

def matchTail (rest : List Char) : Option (List Char) :=
  if rest.takeWhile isWs = [] then none
  else
    let g := (rest.dropWhile isWs).takeWhile (fun c => c ≠ '\n')
    if g = [] then none else some g

def matchH1 (block : List Char) : Option (List Char) :=
  match block with
  | [] => none
  | c :: rest => if c = '#' then matchTail rest else none

def matchH2 (block : List Char) : Option (List Char) :=
  match block with
  | c1 :: c2 :: rest => if c1 = '#' ∧ c2 = '#' then matchTail rest else none
  | _ => none

def matchH3 (block : List Char) : Option (List Char) :=
  match block with
  | c1 :: c2 :: c3 :: rest =>
    if c1 = '#' ∧ c2 = '#' ∧ c3 = '#' then matchTail rest else none
  | _ => none

def isBulletMarker (c : Char) : Bool := c = '*' || c = '-' || c = '+'

def matchBulletLine (l : List Char) : Option (List Char) :=
  match l with
  | [] => none
  | c :: rest => if isBulletMarker c then matchTail rest else none

def matchNumberedLine (l : List Char) : Option (List Char) :=
  let ds := l.takeWhile Char.isDigit
  if ds = [] then none
  else
    match l.drop ds.length with
    | c :: rest => if c = '.' then matchTail rest else none
    | [] => none

def matchBlockquoteLine (l : List Char) : Option (List Char) :=
  match l with
  | [] => none
  | c :: rest => if c = '>' then matchTail rest else none

/-- Suffixes of the text starting right after each newline, i.e. at every
MULTILINE `^` anchor except the first. -/
def tailsAfterNewline : List Char → List (List Char)
  | [] => []
  | c :: rest =>
    if c = '\n' then rest :: tailsAfterNewline rest else tailsAfterNewline rest

def lineStarts (l : List Char) : List (List Char) := l :: tailsAfterNewline l

/-- `self.patterns['bullet'].search(block)` (MULTILINE `^`-anchored). -/
def searchBullet (block : List Char) : Bool :=
  (lineStarts block).any (fun s => (matchBulletLine s).isSome)

/-- `self.patterns['numbered'].search(block)`. -/
def searchNumbered (block : List Char) : Bool :=
  (lineStarts block).any (fun s => (matchNumberedLine s).isSome)

def mkHeadingChunk (ps : ParserSettings) (cid : Nat) (text raw : List Char)
    (t : ChunkType) : ContentChunk :=
  let loudness : ℚ :=
    if t = .h1 then ps.heading_h1_loudness_boost
    else if t = .h2 then ps.heading_h2_loudness_boost
    else ps.heading_h3_loudness_boost
  let pause : Nat :=
    if t = .h1 then ps.pause_after_h1_ms
    else if t = .h2 then ps.pause_after_h2_ms
    else ps.pause_after_h3_ms
  { id := cid, type := t, text := text, raw_text := raw, char_count := text.length,
    pause_after_ms := pause, loudness_boost := loudness }

def mkBulletChunk (ps : ParserSettings) (cid : Nat) (text raw : List Char) :
    ContentChunk :=
  { id := cid, type := .bullet, text := text, raw_text := raw,
    char_count := text.length, pause_after_ms := ps.pause_after_bullet_ms,
    loudness_boost := 1 }

/-- The per-line loop of the bullet branch of `_process_block`. -/
def bulletChunksLoop (ps : ParserSettings) : Nat → List (List Char) → List ContentChunk
  | _, [] => []
  | cid, rawLine :: rest =>
    let line := strip rawLine
    if line = [] then bulletChunksLoop ps cid rest
    else
      match matchBulletLine line with
      | some g =>
        mkBulletChunk ps cid (cleanForTTS g) line :: bulletChunksLoop ps (cid + 1) rest
      | none =>
        match matchNumberedLine line with
        | some g =>
          mkBulletChunk ps cid (cleanForTTS g) line :: bulletChunksLoop ps (cid + 1) rest
        | none => bulletChunksLoop ps cid rest

/-- `' '.join(...)` over the blockquote block's non-blank lines, each
replaced by its capture group when the blockquote pattern matches it. -/
def quoteJoin (block : List Char) : List Char :=
  joinSp (((splitLines block).filter (fun line => strip line ≠ [])).map
    (fun line =>
      match matchBlockquoteLine line with
      | some g => g
      | none => line))

/-- `MarkdownParser._process_block`. -/
def processBlock (ps : ParserSettings) (maxSize : Nat) (block : List Char)
    (startId : Nat) : List ContentChunk :=
  match matchH1 block with
  | some g => [mkHeadingChunk ps startId (cleanForTTS g) block .h1]
  | none =>
    match matchH2 block with
    | some g => [mkHeadingChunk ps startId (cleanForTTS g) block .h2]
    | none =>
      match matchH3 block with
      | some g => [mkHeadingChunk ps startId (cleanForTTS g) block .h3]
      | none =>
        if searchBullet block || searchNumbered block then
          bulletChunksLoop ps startId (splitLines block)
        else
          match matchBlockquoteLine block with
          | some _ =>
            createParagraphChunks ps maxSize startId (cleanForTTS (quoteJoin block)) block
          | none => createParagraphChunks ps maxSize startId (cleanForTTS block) block

/-- The block loop of `_parse_content`: strips each block, skips empties,
and advances the running chunk id by the number of chunks just produced. -/
def parseLoop (ps : ParserSettings) (maxSize : Nat) :
    Nat → List (List Char) → List ContentChunk
  | _, [] => []
  | cid, b :: rest =>
    let block := strip b
    if block = [] then parseLoop ps maxSize cid rest
    else
      let blockChunks := processBlock ps maxSize block cid
      blockChunks ++ parseLoop ps maxSize (cid + blockChunks.length) rest

/-- `MarkdownParser._parse_content`. -/
def parseContentChunks (ps : ParserSettings) (maxSize : Nat) (content : List Char) :
    List ContentChunk :=
  parseLoop ps maxSize 0 (splitBlocks (codeBlockSub content))

end SarvamTTS

namespace SarvamTTS

/-! ### Concrete instances used by the closed witness theorems -/

def demoParagraphChunk : ContentChunk :=
  { id := 0, type := .paragraph, text := ['x'], raw_text := ['x'], char_count := 1,
    pause_after_ms := 300, loudness_boost := 1 }

def demoHeadingChunk : ContentChunk :=
  { id := 1, type := .h1, text := ['t'], raw_text := ['#', ' ', 't'], char_count := 1,
    pause_after_ms := 800, loudness_boost := 13/10 }

def demoNet : NetModel :=
  { send := fun _ => .exn "connection refused" 5, payloadBytes := fun p => p.text.length }

def demoAudioModel : AudioModel :=
  { Audio := Nat, emptyAudio := 0, decode := fun l => l.length, gain := fun a _ => a,
    append := fun a b => a + b, silent := fun n => n, durationMs := fun a => a,
    encodedSize := fun a _ => a }

end SarvamTTS

namespace SarvamTTS

/-! ### Auxiliary predicates used to state the chunking claims -/

/-- Right-hand strip only (trailing whitespace); `strip l = rstrip (l.dropWhile isWs)`. -/
def rstrip (l : List Char) : List Char := (l.reverse.dropWhile isWs).reverse

/-- No two adjacent whitespace characters. -/
def noTwoAdjacentWs : List Char → Bool
  | [] => true
  | [_] => true
  | a :: b :: rest => (!(isWs a && isWs b)) && noTwoAdjacentWs (b :: rest)

/-- Whitespace-normalized text, as produced by `_clean_for_tts` (whitespace
runs collapsed to single spaces, ends trimmed): every whitespace character
is a plain space, no two are adjacent, and neither end is whitespace. -/
def normalizedText (l : List Char) : Bool :=
  l.all (fun c => !(isWs c) || c = ' ') && noTwoAdjacentWs l &&
    (match l.head? with | some c => !(isWs c) | none => true) &&
    (match l.getLast? with | some c => !(isWs c) | none => true)

/-- What `current_chunk` would be at the end of the packing loop if no
chunk were ever flushed: the loop's buffer-extension step folded over the
sentence list. -/
def packAll : List Char → List (List Char) → List Char
  | cur, [] => cur
  | cur, s :: rest =>
    let s2 := strip s
    if s2 = [] then packAll cur rest
    else packAll (strip (cur ++ ' ' :: s2)) rest

/-- Characters free of any markdown-marker or horizontal-rule role: not an
emphasis/link/image/code trigger, not a backslash, not a rule character, and
no whitespace other than a plain space. -/
def plainChar (c : Char) : Bool :=
  !(c = '*' || c = '[' || c = ']' || c = '(' || c = ')' || c = backtick ||
    c = '\\' || c = '!' || c = '-' || c = '_' || (isWs c && !(c = ' ')))

/-! ## Theorems -/

/-! ### Helper lemmas about the orchestrator -/

theorem processChunkWithStats_fst_chunk_id (apiKey : String) (net : NetModel)
    (chunk : ContentChunk) (settings : TTSSettings) :
    (processChunkWithStats apiKey net chunk settings).1.chunk_id = chunk.id := by
  unfold processChunkWithStats
  split
  · rfl
  · dsimp only
    split <;> rfl

theorem processOneChunk_response (apiKey : String) (net : NetModel)
    (settings : TTSSettings) (st : JobState) (chunk : ContentChunk) :
    (processOneChunk apiKey net settings st chunk).response =
      { st.response with
          completed_chunks := st.response.completed_chunks + 1
          results := st.response.results ++
            [(processChunkWithStats apiKey net chunk settings).1] } := by
  rfl

theorem ttsLoop_spec (apiKey : String) (net : NetModel) (settings : TTSSettings) :
    ∀ (chunks : List ContentChunk) (st : JobState),
      (ttsLoop apiKey net settings st chunks).1.response.total_chunks
          = st.response.total_chunks ∧
      (ttsLoop apiKey net settings st chunks).1.response.status = st.response.status ∧
      (ttsLoop apiKey net settings st chunks).1.response.completed_chunks
          = st.response.completed_chunks + chunks.length ∧
      (ttsLoop apiKey net settings st chunks).1.response.results.map
          (fun x => x.chunk_id)
        = st.response.results.map (fun x => x.chunk_id) ++ chunks.map (fun c => c.id) ∧
      (ttsLoop apiKey net settings st chunks).2.map
          (fun s => (s.total_chunks, s.completed_chunks, s.status))
        = (List.range chunks.length).map
            (fun i => (st.response.total_chunks,
                       st.response.completed_chunks + i + 1,
                       st.response.status)) := by
  intro chunks
  induction chunks with
  | nil => intro st; simp [ttsLoop]
  | cons chunk rest ih =>
    intro st
    obtain ⟨h1, h2, h3, h4, h5⟩ := ih (processOneChunk apiKey net settings st chunk)
    rw [processOneChunk_response] at h1 h2 h3 h4 h5
    refine ⟨?_, ?_, ?_, ?_, ?_⟩
    · simpa [ttsLoop] using h1
    · simpa [ttsLoop] using h2
    · simp only [ttsLoop]
      rw [h3]
      simp
      omega
    · simp only [ttsLoop]
      rw [h4]
      simp [processChunkWithStats_fst_chunk_id]
    · simp only [ttsLoop, List.map_cons, List.length_cons]
      rw [h5, List.range_succ_eq_map, List.map_cons, List.map_map]
      refine congrArg₂ List.cons ?_ ?_
      · simp [processOneChunk_response]
      · refine List.map_congr_left fun i _ => ?_
        simp [processOneChunk_response]
        omega

theorem generate_triples (apiKey : String) (net : NetModel) (jobId filename : String)
    (docChunks : List ContentChunk) (settings : TTSSettings)
    (chunkIds : Option (List Nat)) :
    (generateTTSForDocument apiKey net jobId filename docChunks settings chunkIds).map
        (fun s => (s.total_chunks, s.completed_chunks, s.status))
      = ((resolveChunks docChunks chunkIds).length, 0, JobStatus.processing)
          :: ((List.range (resolveChunks docChunks chunkIds).length).map
              (fun i => ((resolveChunks docChunks chunkIds).length, i + 1,
                          JobStatus.processing))
          ++ [((resolveChunks docChunks chunkIds).length,
               (resolveChunks docChunks chunkIds).length, JobStatus.completed)]) := by
  obtain ⟨h1, h2, h3, h4, h5⟩ := ttsLoop_spec apiKey net settings
    (resolveChunks docChunks chunkIds)
    { response := { job_id := jobId
                    filename := filename
                    total_chunks := (resolveChunks docChunks chunkIds).length
                    completed_chunks := 0
                    status := .processing
                    results := [] }
      audioCache := []
      apiStats := [] }
  simp only [generateTTSForDocument, List.map_cons, List.map_append]
  rw [h5]
  simp [h1, h3]

theorem generate_getLast (apiKey : String) (net : NetModel) (jobId filename : String)
    (docChunks : List ContentChunk) (settings : TTSSettings)
    (chunkIds : Option (List Nat)) :
    (generateTTSForDocument apiKey net jobId filename docChunks settings chunkIds).getLast?
      = some { (ttsLoop apiKey net settings
           { response := { job_id := jobId
                           filename := filename
                           total_chunks := (resolveChunks docChunks chunkIds).length
                           completed_chunks := 0
                           status := .processing
                           results := [] }
             audioCache := []
             apiStats := [] }
           (resolveChunks docChunks chunkIds)).1.response
          with status := JobStatus.completed } := by
  simp only [generateTTSForDocument]
  exact List.getLast?_concat _

theorem chain_le_range_concat (n : Nat) :
    List.Chain' (· ≤ ·) ((List.range n).map (fun i => i + 1) ++ [n]) := by
  rw [List.chain'_append]
  refine ⟨?_, by simp, ?_⟩
  · rw [List.chain'_map]
    rcases n with _ | m
    · simp
    · rw [List.chain'_range_succ]
      intro i _
      omega
  · intro x hx y hy
    simp only [List.head?_cons, Option.mem_some_iff] at hy
    rcases n with _ | m
    · simp at hx
    · rw [List.range_succ, List.map_append, List.map_cons, List.map_nil,
        List.getLast?_concat] at hx
      simp only [Option.mem_some_iff] at hx
      omega

/-! ### Claim theorems: orchestrator, adapter, exporter -/

/-- C1: for every generation run over the resolved chunk list, the emitted
sequence of progress snapshots has a monotonically non-decreasing
`completed_chunks` counter that never exceeds `total_chunks`, and the final
emitted snapshot has status `completed` with `completed_chunks` equal to
`total_chunks` — for every network oracle, hence in particular when every
individual chunk synthesis fails. -/
theorem c1_generation_progress_invariant (apiKey : String) (net : NetModel)
    (jobId filename : String) (docChunks : List ContentChunk) (settings : TTSSettings)
    (chunkIds : Option (List Nat)) :
    List.Chain' (· ≤ ·)
      ((generateTTSForDocument apiKey net jobId filename docChunks settings chunkIds).map
        (fun s => s.completed_chunks)) ∧
    (∀ s ∈ generateTTSForDocument apiKey net jobId filename docChunks settings chunkIds,
      s.completed_chunks ≤ s.total_chunks) ∧
    ∃ last,
      (generateTTSForDocument apiKey net jobId filename docChunks
          settings chunkIds).getLast? = some last ∧
      last.status = JobStatus.completed ∧
      last.completed_chunks = last.total_chunks := by
  have htr := generate_triples apiKey net jobId filename docChunks settings chunkIds
  refine ⟨?_, ?_, ?_⟩
  · have hmap := congrArg (List.map (fun t : Nat × Nat × JobStatus => t.2.1)) htr
    simp only [List.map_map, List.map_cons, List.map_append] at hmap
    rw [show ((fun t : Nat × Nat × JobStatus => t.2.1) ∘
          fun s : GenerateTTSResponse => (s.total_chunks, s.completed_chunks, s.status))
        = fun s : GenerateTTSResponse => s.completed_chunks from rfl] at hmap
    rw [hmap, List.chain'_cons']
    refine ⟨fun y _ => Nat.zero_le y, ?_⟩
    simpa [List.map_map] using
      chain_le_range_concat (resolveChunks docChunks chunkIds).length
  · intro s hs
    have hmem : (s.total_chunks, s.completed_chunks, s.status)
        ∈ ((resolveChunks docChunks chunkIds).length, 0, JobStatus.processing)
          :: ((List.range (resolveChunks docChunks chunkIds).length).map
              (fun i => ((resolveChunks docChunks chunkIds).length, i + 1,
                          JobStatus.processing))
          ++ [((resolveChunks docChunks chunkIds).length,
               (resolveChunks docChunks chunkIds).length, JobStatus.completed)]) := by
      rw [← htr]
      exact List.mem_map_of_mem _ hs
    simp only [List.mem_cons, List.mem_append, List.mem_map, List.mem_range,
      Prod.mk.injEq] at hmem
    rcases hmem with ⟨h1, h2, _⟩ | ⟨i, hi, h1, h2, _⟩ | ⟨⟨h1, h2, _⟩ | h⟩
    · omega
    · omega
    · omega
    · simp at h
  · obtain ⟨h1, _, h3, _, _⟩ := ttsLoop_spec apiKey net settings
      (resolveChunks docChunks chunkIds)
      { response := { job_id := jobId
                      filename := filename
                      total_chunks := (resolveChunks docChunks chunkIds).length
                      completed_chunks := 0
                      status := .processing
                      results := [] }
        audioCache := []
        apiStats := [] }
    refine ⟨_, generate_getLast apiKey net jobId filename docChunks settings chunkIds,
      rfl, ?_⟩
    simp [h1, h3]

/-- C6 counterexample: with `selected_chunk_ids = []` the code processes all
document chunks (Python truthiness makes the empty list fall through the
filter), whereas the claim demands that exactly the chunks whose id is a
member of the empty list — i.e. none — be processed. -/
theorem c6_counterexample_empty_selection :
    resolveChunks [demoParagraphChunk] (some ([] : List Nat)) = [demoParagraphChunk] ∧
    List.filter (fun c => decide (c.id ∈ ([] : List Nat))) [demoParagraphChunk] = [] ∧
    resolveChunks [demoParagraphChunk] (some ([] : List Nat))
      ≠ List.filter (fun c => decide (c.id ∈ ([] : List Nat))) [demoParagraphChunk] :=
  ⟨rfl, rfl, by decide⟩

/-- C6 (amended): when a non-empty `selected_chunk_ids` list is provided,
exactly the document chunks whose id is in the list are processed, in
document order, and `total_chunks` equals their number; when the list is
absent or empty, all document chunks are processed. -/
theorem c6_selected_chunk_resolution (apiKey : String) (net : NetModel)
    (jobId filename : String) (docChunks : List ContentChunk) (settings : TTSSettings)
    (chunkIds : Option (List Nat)) :
    (∀ ids, chunkIds = some ids → ids ≠ [] →
        resolveChunks docChunks chunkIds
          = docChunks.filter (fun c => decide (c.id ∈ ids))) ∧
    ((chunkIds = none ∨ chunkIds = some []) →
        resolveChunks docChunks chunkIds = docChunks) ∧
    (∀ s ∈ generateTTSForDocument apiKey net jobId filename docChunks settings chunkIds,
        s.total_chunks = (resolveChunks docChunks chunkIds).length) ∧
    ∃ last,
      (generateTTSForDocument apiKey net jobId filename docChunks
          settings chunkIds).getLast? = some last ∧
      last.results.map (fun r => r.chunk_id)
        = (resolveChunks docChunks chunkIds).map (fun c => c.id) := by
  refine ⟨?_, ?_, ?_, ?_⟩
  · intro ids hsome hne
    subst hsome
    simp [resolveChunks, hne]
  · rintro (h | h) <;> subst h <;> simp [resolveChunks]
  · intro s hs
    have htr := generate_triples apiKey net jobId filename docChunks settings chunkIds
    have hmem : (s.total_chunks, s.completed_chunks, s.status)
        ∈ ((resolveChunks docChunks chunkIds).length, 0, JobStatus.processing)
          :: ((List.range (resolveChunks docChunks chunkIds).length).map
              (fun i => ((resolveChunks docChunks chunkIds).length, i + 1,
                          JobStatus.processing))
          ++ [((resolveChunks docChunks chunkIds).length,
               (resolveChunks docChunks chunkIds).length, JobStatus.completed)]) := by
      rw [← htr]
      exact List.mem_map_of_mem _ hs
    simp only [List.mem_cons, List.mem_append, List.mem_map, List.mem_range,
      Prod.mk.injEq] at hmem
    rcases hmem with ⟨h1, _, _⟩ | ⟨i, hi, h1, _, _⟩ | ⟨⟨h1, _, _⟩ | h⟩
    · omega
    · omega
    · omega
    · simp at h
  · obtain ⟨_, _, _, h4, _⟩ := ttsLoop_spec apiKey net settings
      (resolveChunks docChunks chunkIds)
      { response := { job_id := jobId
                      filename := filename
                      total_chunks := (resolveChunks docChunks chunkIds).length
                      completed_chunks := 0
                      status := .processing
                      results := [] }
        audioCache := []
        apiStats := [] }
    refine ⟨_, generate_getLast apiKey net jobId filename docChunks settings chunkIds, ?_⟩
    simpa using h4

theorem c6_selected_chunk_resolution_witness :
    resolveChunks [demoParagraphChunk, demoHeadingChunk] (some [1])
      = List.filter (fun c => decide (c.id ∈ [1]))
          [demoParagraphChunk, demoHeadingChunk] :=
  (c6_selected_chunk_resolution "" demoNet "j" "f"
      [demoParagraphChunk, demoHeadingChunk] {} (some [1])).1
    [1] rfl (by decide)

/-- C7: with the API credential missing, the synthesis attempt returns a
failed `TTSChunkResult` whose error says the key is not configured, an
`APICallStats` with `bytes_sent = 0` and `success = false`, and issues no
network request at all. -/
theorem c7_not_configured_short_circuit (apiKey : String) (net : NetModel)
    (chunk : ContentChunk) (settings : TTSSettings)
    (h : isConfigured apiKey = false) :
    processChunkWithStats apiKey net chunk settings =
      ({ chunk_id := chunk.id
         success := false
         error := some "Sarvam AI API key not configured" },
       { chunk_id := chunk.id
         characters_sent := chunk.text.length
         bytes_sent := 0
         bytes_received := 0
         duration_ms := 0
         success := false
         error := some "API key not configured" },
       ([] : List SynthPayload)) := by
  simp [processChunkWithStats, h]

theorem c7_not_configured_short_circuit_witness :
    processChunkWithStats "" demoNet demoParagraphChunk {} =
      ({ chunk_id := demoParagraphChunk.id
         success := false
         error := some "Sarvam AI API key not configured" },
       { chunk_id := demoParagraphChunk.id
         characters_sent := demoParagraphChunk.text.length
         bytes_sent := 0
         bytes_received := 0
         duration_ms := 0
         success := false
         error := some "API key not configured" },
       ([] : List SynthPayload)) :=
  c7_not_configured_short_circuit "" demoNet demoParagraphChunk {} (by decide)

/-- C8: `export_audio` fails with `NotFound` when the job id has no entry in
the fragment cache and with `Empty` when the cached fragment list is empty;
in both cases no file is written (and the cache, which the function only
reads, is unchanged). -/
theorem c8_export_failure_paths (am : AudioModel)
    (cache : String → Option (List (Nat × List Char))) (jobId : String)
    (docChunks : List ContentChunk) (outputFilename format : String) :
    (cache jobId = none →
      exportAudio am cache jobId docChunks outputFilename format
        = (.error (.notFound jobId), [])) ∧
    (cache jobId = some [] →
      exportAudio am cache jobId docChunks outputFilename format
        = (.error .empty, [])) := by
  constructor <;> intro h <;> simp [exportAudio, h]

theorem c8_export_failure_paths_witness :
    exportAudio demoAudioModel (fun _ => none) "job1" [] "out.mp3" "mp3"
        = (.error (.notFound "job1"), []) ∧
    exportAudio demoAudioModel (fun _ => some []) "job1" [] "out.mp3" "mp3"
        = (.error .empty, []) :=
  ⟨(c8_export_failure_paths demoAudioModel (fun _ => none) "job1" [] "out.mp3" "mp3").1
      rfl,
   (c8_export_failure_paths demoAudioModel (fun _ => some []) "job1" [] "out.mp3"
      "mp3").2 rfl⟩

/-- C9: the pace sent with a synthesis request is
`max 0.9 (voice_settings.pace - 0.1)` exactly when the chunk's kind is a
heading (h1, h2 or h3), and `voice_settings.pace` unchanged for every
non-heading kind (no other enum value starts with 'h'). -/
theorem c9_heading_pace_rule (chunk : ContentChunk) (settings : TTSSettings) :
    ((chunk.type = .h1 ∨ chunk.type = .h2 ∨ chunk.type = .h3) →
      (buildPayload chunk settings).pace
        = max (9/10 : ℚ) (settings.pace - 1/10)) ∧
    ((chunk.type ≠ .h1 ∧ chunk.type ≠ .h2 ∧ chunk.type ≠ .h3) →
      (buildPayload chunk settings).pace = settings.pace) := by
  constructor
  · rintro (h | h | h) <;> simp [buildPayload, h, show startsWithH .h1 = true from rfl,
      show startsWithH .h2 = true from rfl, show startsWithH .h3 = true from rfl]
  · rintro ⟨n1, n2, n3⟩
    rcases htype : chunk.type with _ | _ | _ | _ | _ | _ | _
    · exact absurd htype n1
    · exact absurd htype n2
    · exact absurd htype n3
    all_goals simp [buildPayload, htype, show startsWithH .paragraph = false from by decide,
      show startsWithH .bullet = false from by decide,
      show startsWithH .code = false from by decide,
      show startsWithH .blockquote = false from by decide]

theorem c9_heading_pace_rule_witness :
    (buildPayload demoHeadingChunk {}).pace
      = max (9/10 : ℚ) ((11/10 : ℚ) - 1/10) ∧
    (buildPayload demoParagraphChunk {}).pace = (11/10 : ℚ) :=
  ⟨(c9_heading_pace_rule demoHeadingChunk {}).1 (Or.inl rfl),
   (c9_heading_pace_rule demoParagraphChunk {}).2 (by decide)⟩

/-! ### Helper lemmas about `strip` -/

theorem dropWhile_head_false (p : Char → Bool) :
    ∀ (l : List Char) (c : Char) (t : List Char),
      l.dropWhile p = c :: t → p c = false := by
  intro l
  induction l with
  | nil => intro c t h; simp at h
  | cons a l ih =>
    intro c t h
    by_cases hp : p a = true
    · rw [List.dropWhile_cons, if_pos hp] at h
      exact ih _ _ h
    · rw [List.dropWhile_cons, if_neg hp] at h
      injection h with h1 _
      subst h1
      simpa using hp

theorem dropWhile_eq_self (p : Char → Bool) (l : List Char)
    (h : ∀ c, l.head? = some c → p c = false) : l.dropWhile p = l := by
  cases l with
  | nil => rfl
  | cons a l =>
    rw [List.dropWhile_cons, if_neg]
    simp [h a rfl]

theorem dropWhile_idem (p : Char → Bool) (l : List Char) :
    (l.dropWhile p).dropWhile p = l.dropWhile p := by
  apply dropWhile_eq_self
  intro c hc
  cases hdw : l.dropWhile p with
  | nil => rw [hdw] at hc; simp at hc
  | cons a t =>
    rw [hdw] at hc
    simp at hc
    subst hc
    exact dropWhile_head_false p l _ _ hdw

theorem filter_dropWhile_isWs (l : List Char) :
    (l.dropWhile isWs).filter (fun c => !isWs c) = l.filter (fun c => !isWs c) := by
  induction l with
  | nil => rfl
  | cons a l ih =>
    rw [List.dropWhile_cons]
    split
    · rw [ih, List.filter_cons, if_neg]
      simpa using ‹isWs a = true›
    · rfl

theorem filter_strip (l : List Char) :
    (strip l).filter (fun c => !isWs c) = l.filter (fun c => !isWs c) := by
  unfold strip
  rw [List.filter_reverse, filter_dropWhile_isWs, List.filter_reverse,
    List.reverse_reverse, filter_dropWhile_isWs]

theorem strip_length_le (l : List Char) : (strip l).length ≤ l.length := by
  unfold strip
  calc ((l.dropWhile isWs).reverse.dropWhile isWs).reverse.length
      = ((l.dropWhile isWs).reverse.dropWhile isWs).length := List.length_reverse _
    _ ≤ (l.dropWhile isWs).reverse.length :=
        ((List.dropWhile_suffix isWs).length_le)
    _ = (l.dropWhile isWs).length := List.length_reverse _
    _ ≤ l.length := (List.dropWhile_suffix isWs).length_le

theorem strip_head_not_ws (l : List Char) (c : Char) (t : List Char)
    (h : strip l = c :: t) : isWs c = false := by
  have hx : ((l.dropWhile isWs).reverse.dropWhile isWs) ≠ [] := by
    intro hnil
    rw [strip, hnil] at h
    simp at h
  have hhead : (strip l).head? = some c := by rw [h]; rfl
  rw [strip, List.head?_reverse] at hhead
  have hlast : ((l.dropWhile isWs).reverse.dropWhile isWs).getLast?
      = ((l.dropWhile isWs).reverse).getLast? := by
    obtain ⟨pre, hpre⟩ := List.dropWhile_suffix (l := (l.dropWhile isWs).reverse) isWs
    conv_rhs => rw [← hpre]
    rw [List.getLast?_append, Option.or_of_isSome (by rwa [List.getLast?_isSome])]
  rw [hlast, List.getLast?_reverse] at hhead
  cases hdw : l.dropWhile isWs with
  | nil => rw [hdw] at hhead; simp at hhead
  | cons a t' =>
    rw [hdw] at hhead
    simp at hhead
    subst hhead
    exact dropWhile_head_false isWs l _ _ hdw

theorem strip_getLast_not_ws (l : List Char) (c : Char)
    (h : (strip l).getLast? = some c) : isWs c = false := by
  rw [strip, List.getLast?_reverse] at h
  cases hdw : (l.dropWhile isWs).reverse.dropWhile isWs with
  | nil => rw [hdw] at h; simp at h
  | cons a t =>
    rw [hdw] at h
    simp at h
    subst h
    exact dropWhile_head_false isWs _ _ _ hdw

theorem strip_eq_self (l : List Char)
    (h1 : ∀ c, l.head? = some c → isWs c = false)
    (h2 : ∀ c, l.getLast? = some c → isWs c = false) : strip l = l := by
  unfold strip
  rw [dropWhile_eq_self isWs l h1, dropWhile_eq_self, List.reverse_reverse]
  intro c hc
  rw [List.head?_reverse] at hc
  exact h2 c hc

theorem strip_idem (l : List Char) : strip (strip l) = strip l := by
  apply strip_eq_self
  · intro c hc
    cases hs : strip l with
    | nil => rw [hs] at hc; simp at hc
    | cons a t =>
      rw [hs] at hc
      simp at hc
      subst hc
      exact strip_head_not_ws l _ _ hs
  · intro c hc
    exact strip_getLast_not_ws l c hc

theorem strip_cons_space (l : List Char) : strip (' ' :: l) = strip l := by
  unfold strip
  rw [List.dropWhile_cons, if_pos (by simp [isWs])]

theorem strip_eq_nil_filter (l : List Char) (h : strip l = []) :
    l.filter (fun c => !isWs c) = [] := by
  rw [← filter_strip, h]
  rfl

theorem strip_ne_nil_filter (l : List Char) (c : Char) (t : List Char)
    (h : strip l = c :: t) : l.filter (fun c => !isWs c) ≠ [] := by
  rw [← filter_strip, h, List.filter_cons, if_pos]
  · simp
  · simpa using strip_head_not_ws l c t h

theorem strip_append_sp (cur s : List Char) (hcur : strip cur = cur)
    (hs : strip s = s) (hne : s ≠ []) :
    strip (cur ++ ' ' :: s) = if cur = [] then s else cur ++ ' ' :: s := by
  rcases hc : cur with _ | ⟨c, cur'⟩
  · subst hc
    simp only [List.nil_append]
    rw [strip_cons_space, hs]
    simp
  · subst hc
    rw [if_neg (by simp)]
    have hses : s.getLast?.isSome := by rw [List.getLast?_isSome]; exact hne
    apply strip_eq_self
    · intro e he
      rw [List.cons_append] at he
      simp at he
      subst he
      exact strip_head_not_ws (c :: cur') c cur' hcur
    · intro e he
      rw [List.getLast?_append] at he
      have hsl : (' ' :: s).getLast? = s.getLast? := by
        rw [show (' ' :: s) = [' '] ++ s from rfl, List.getLast?_append,
          Option.or_of_isSome hses]
      rw [hsl, Option.or_of_isSome hses] at he
      exact strip_getLast_not_ws s e (by rw [hs]; exact he)

/-! ### Helper lemmas about sentence splitting -/

theorem drop_takeWhile_length (p : Char → Bool) (l : List Char) :
    l.drop (l.takeWhile p).length = l.dropWhile p := by
  induction l with
  | nil => rfl
  | cons a l ih =>
    by_cases hp : p a = true
    · rw [List.takeWhile_cons, if_pos hp, List.dropWhile_cons, if_pos hp,
        List.length_cons, List.drop_succ_cons, ih]
    · rw [List.takeWhile_cons, if_neg hp, List.dropWhile_cons, if_neg hp]
      rfl

theorem isTerm_not_ws (c : Char) (h : isTerm c = true) : isWs c = false := by
  simp only [isTerm, Bool.or_eq_true, decide_eq_true_eq] at h
  rcases h with ((((h | h) | h) | h) | h) | h <;> subst h <;> decide

theorem noTwoAdjacentWs_tail (a : Char) (l : List Char)
    (h : noTwoAdjacentWs (a :: l) = true) : noTwoAdjacentWs l = true := by
  cases l with
  | nil => rfl
  | cons b t =>
    rw [noTwoAdjacentWs, Bool.and_eq_true] at h
    exact h.2

theorem splitRaw_ne_nil (acc l : List Char) : splitRaw acc l ≠ [] := by
  induction acc, l using splitRaw.induct with
  | case1 acc => simp [splitRaw]
  | case2 acc c rest h ih => simp [splitRaw, h]
  | case3 acc c rest h ih =>
    rw [splitRaw, if_neg h]
    exact ih

theorem joinSp_cons (p : List Char) (ps : List (List Char)) (h : ps ≠ []) :
    joinSp (p :: ps) = p ++ ' ' :: joinSp ps := by
  cases ps with
  | nil => exact absurd rfl h
  | cons q qs => rfl

theorem splitRaw_no_term : ∀ (acc l : List Char),
    (∀ c ∈ l, isTerm c = false) → splitRaw acc l = [acc.reverse ++ l] := by
  intro acc l
  induction acc, l using splitRaw.induct with
  | case1 acc => intro _; simp [splitRaw]
  | case2 acc c rest h ih =>
    intro hterm
    have := hterm c (by simp)
    rw [this] at h
    simp at h
  | case3 acc c rest h ih =>
    intro hterm
    rw [splitRaw, if_neg h, ih (fun d hd => hterm d (by simp [hd]))]
    simp

theorem joinSp_splitRaw : ∀ (acc l : List Char),
    (∀ c ∈ l, isWs c = true → c = ' ') → noTwoAdjacentWs l = true →
    joinSp (splitRaw acc l) = acc.reverse ++ l := by
  intro acc l
  induction acc, l using splitRaw.induct with
  | case1 acc => intro _ _; simp [splitRaw, joinSp]
  | case2 acc c rest h ih =>
    intro hA hB
    obtain ⟨hc, hw⟩ := h
    rw [drop_takeWhile_length] at ih
    have hpre := List.takeWhile_append_dropWhile (p := isWs) (l := rest)
    rcases hwd : rest.takeWhile isWs with _ | ⟨d, w'⟩
    · exact absurd hwd hw
    have hd : isWs d = true := by
      have hmem : d ∈ rest.takeWhile isWs := by rw [hwd]; simp
      exact List.mem_takeWhile_imp hmem
    have hw' : w' = [] := by
      cases hwe : w' with
      | nil => rfl
      | cons e w'' =>
        have he : isWs e = true := by
          have hmem : e ∈ rest.takeWhile isWs := by rw [hwd, hwe]; simp
          exact List.mem_takeWhile_imp hmem
        have hrest : rest = d :: e :: (w'' ++ rest.dropWhile isWs) := by
          have h2 := hpre.symm
          rw [hwd, hwe] at h2
          simpa using h2
        rw [hrest] at hB
        have hB2 := noTwoAdjacentWs_tail c _ hB
        rw [noTwoAdjacentWs, Bool.and_eq_true] at hB2
        have h3 := hB2.1
        rw [hd, he] at h3
        simp at h3
    have hdmem : d ∈ rest := by
      rw [← hpre, hwd]
      simp
    have hdsp : d = ' ' := hA d (by simp [hdmem]) hd
    have hrest : rest = ' ' :: rest.dropWhile isWs := by
      have h2 := hpre.symm
      rw [hwd, hw', hdsp] at h2
      simpa using h2
    rw [splitRaw, if_pos ⟨hc, hw⟩, joinSp_cons _ _ (splitRaw_ne_nil _ _),
      drop_takeWhile_length]
    have hA2 : ∀ e ∈ rest.dropWhile isWs, isWs e = true → e = ' ' := by
      intro e he hwe
      refine hA e ?_ hwe
      have hsub := (List.dropWhile_suffix (l := rest) isWs).subset he
      simp [hsub]
    have hB2 : noTwoAdjacentWs (rest.dropWhile isWs) = true := by
      have h1 := noTwoAdjacentWs_tail c rest hB
      rw [hrest] at h1
      exact noTwoAdjacentWs_tail _ _ h1
    rw [ih hA2 hB2]
    conv_rhs => rw [hrest]
    simp

  | case3 acc c rest h ih =>
    intro hA hB
    rw [splitRaw, if_neg h]
    rw [ih (fun d hd hw => hA d (by simp [hd]) hw) (noTwoAdjacentWs_tail c rest hB)]
    simp

theorem splitRaw_pieces : ∀ (acc l : List Char),
    (∀ c, acc.getLast? = some c → isWs c = false) →
    (acc = [] → ∀ c, l.head? = some c → isWs c = false) →
    (∀ c, (acc.reverse ++ l).getLast? = some c → isWs c = false) →
    acc.reverse ++ l ≠ [] →
    ∀ p ∈ splitRaw acc l, strip p = p ∧ p ≠ [] := by
  intro acc l
  induction acc, l using splitRaw.induct with
  | case1 acc =>
    intro h1 _ h3 hne p hp
    rw [splitRaw] at hp
    simp at hp
    subst hp
    simp only [List.append_nil] at h3 hne
    refine ⟨strip_eq_self _ ?_ ?_, by simpa using hne⟩
    · intro c hc
      rw [List.head?_reverse] at hc
      exact h1 c hc
    · exact h3
  | case2 acc c rest h ih =>
    intro h1 h2 h3 hne p hp
    obtain ⟨hc, hw⟩ := h
    rw [drop_takeWhile_length] at ih
    have hpre := List.takeWhile_append_dropWhile (p := isWs) (l := rest)
    have hcws : isWs c = false := isTerm_not_ws c hc
    have hrne : rest.dropWhile isWs ≠ [] := by
      intro hr0
      have hrest : rest = rest.takeWhile isWs := by
        conv_lhs => rw [← hpre]
        rw [hr0, List.append_nil]
      have hlast : (acc.reverse ++ c :: rest).getLast? = rest.getLast? := by
        rw [List.getLast?_append, show (c :: rest) = [c] ++ rest from rfl,
          List.getLast?_append]
        cases hg : rest.getLast? with
        | none =>
          rw [List.getLast?_eq_none_iff] at hg
          subst hg
          simp at hw
        | some x => rfl
      cases hg : rest.getLast? with
      | none =>
        rw [List.getLast?_eq_none_iff] at hg
        subst hg
        simp at hw
      | some x =>
        have hxw : isWs x = true := by
          have hxmem : x ∈ rest.takeWhile isWs := by
            rw [← hrest]
            exact List.mem_of_getLast?_eq_some hg
          exact List.mem_takeWhile_imp hxmem
        have := h3 x (by rw [hlast, hg])
        rw [hxw] at this
        simp at this
    rw [splitRaw, if_pos ⟨hc, hw⟩] at hp
    rw [drop_takeWhile_length] at hp
    rcases List.mem_cons.mp hp with hp1 | hp2
    · subst hp1
      constructor
      · apply strip_eq_self
        · intro e he
          rcases hacc : acc with _ | ⟨a, acc'⟩
          · subst hacc
            simp at he
            subst he
            exact hcws
          · subst hacc
            rw [List.head?_append, List.head?_reverse,
              Option.or_of_isSome (by rw [List.getLast?_isSome]; simp)] at he
            exact h1 e he
        · intro e he
          rw [List.getLast?_concat] at he
          simp at he
          subst he
          exact hcws
      · simp
    · refine ih ?_ ?_ ?_ ?_ p hp2
      · intro e he
        simp at he
      · intro _ e he
        cases hdw : rest.dropWhile isWs with
        | nil => exact absurd hdw hrne
        | cons a t =>
          rw [hdw] at he
          simp at he
          subst he
          exact dropWhile_head_false isWs rest _ _ hdw
      · intro e he
        simp only [List.reverse_nil, List.nil_append] at he
        apply h3 e
        rw [List.getLast?_append, show (c :: rest) = [c] ++ rest from rfl,
          List.getLast?_append]
        have hrlast : rest.getLast? = (rest.dropWhile isWs).getLast? := by
          obtain ⟨pre, hpre2⟩ := List.dropWhile_suffix (l := rest) isWs
          conv_lhs => rw [← hpre2]
          rw [List.getLast?_append,
            Option.or_of_isSome (by rwa [List.getLast?_isSome])]
        rw [hrlast, he]
        rfl
      · simpa using hrne
  | case3 acc c rest h ih =>
    intro h1 h2 h3 hne p hp
    rw [splitRaw, if_neg h] at hp
    refine ih ?_ ?_ ?_ ?_ p hp
    · intro e he
      rcases hacc : acc with _ | ⟨a, acc'⟩
      · subst hacc
        simp at he
        subst he
        have := h2 rfl c rfl
        exact this
      · subst hacc
        rw [List.getLast?_cons_cons] at he
        exact h1 e he
    · intro hfalse
      simp at hfalse
    · intro e he
      apply h3 e
      rw [List.reverse_cons, List.append_assoc] at he
      simpa using he
    · simp

theorem normalized_parts (l : List Char) (h : normalizedText l = true) :
    (∀ c ∈ l, isWs c = true → c = ' ') ∧ noTwoAdjacentWs l = true ∧
    (∀ c, l.head? = some c → isWs c = false) ∧
    (∀ c, l.getLast? = some c → isWs c = false) := by
  rw [normalizedText] at h
  simp only [Bool.and_eq_true] at h
  obtain ⟨⟨⟨hall, hnt⟩, hh⟩, hl⟩ := h
  refine ⟨?_, hnt, ?_, ?_⟩
  · intro c hc hw
    have h2 := List.all_eq_true.mp hall c hc
    rw [hw] at h2
    simpa using h2
  · intro c hc
    rw [hc] at hh
    simpa using hh
  · intro c hc
    rw [hc] at hl
    simpa using hl

theorem strip_eq_self_of_normalized (l : List Char) (h : normalizedText l = true) :
    strip l = l := by
  obtain ⟨_, _, hH, hL⟩ := normalized_parts l h
  exact strip_eq_self l hH hL

theorem splitIntoSentences_normalized (l : List Char) (h : normalizedText l = true)
    (hne : l ≠ []) :
    splitIntoSentences l = splitRaw [] l ∧
    (∀ p ∈ splitRaw [] l, strip p = p ∧ p ≠ []) := by
  obtain ⟨hA, hB, hH, hL⟩ := normalized_parts l h
  have hpieces := splitRaw_pieces [] l (by simp) (fun _ => hH)
    (by simpa using hL) (by simpa using hne)
  refine ⟨?_, hpieces⟩
  rw [splitIntoSentences]
  have hmap : (splitRaw [] l).map strip = (splitRaw [] l).map id :=
    List.map_congr_left (fun p hp => (hpieces p hp).1)
  rw [hmap, List.map_id, List.filter_eq_self.mpr (fun p hp => by
    simpa using (hpieces p hp).2)]

theorem joinSp_splitRaw_normalized (l : List Char) (h : normalizedText l = true) :
    joinSp (splitRaw [] l) = l := by
  obtain ⟨hA, hB, _, _⟩ := normalized_parts l h
  simpa using joinSp_splitRaw [] l hA hB

/-! ### Helper lemmas about the paragraph packing loop -/

theorem stripped_filter_ne_nil (s : List Char) (hs : strip s = s) (hne : s ≠ []) :
    s.filter (fun c => !isWs c) ≠ [] := by
  cases hsc : s with
  | nil => exact absurd hsc hne
  | cons c t =>
    have hws : isWs c = false := strip_head_not_ws s c t (by rw [hs, hsc])
    rw [List.filter_cons, if_pos (by simp [hws])]
    simp

theorem hardSlices_pos (maxSize : Nat) (s : List Char) (hm : maxSize ≠ 0)
    (hs : s ≠ []) : 1 ≤ (hardSlices maxSize s).length := by
  rw [hardSlices, if_neg hm]
  split
  · rw [if_neg (by simpa using hs)]
    simp
  · simp

theorem hardSlices_two (maxSize : Nat) (s : List Char) (hm : 0 < maxSize)
    (hlen : maxSize < s.length) : 2 ≤ (hardSlices maxSize s).length := by
  rw [hardSlices, if_neg (by omega), if_neg (by omega)]
  have h1 : 1 ≤ (hardSlices maxSize (s.drop maxSize)).length := by
    apply hardSlices_pos _ _ (by omega)
    intro hnil
    have := congrArg List.length hnil
    simp at this
    omega
  simp
  omega

theorem hardSlices_le (maxSize : Nat) (s : List Char) :
    ∀ t ∈ hardSlices maxSize s, t.length ≤ maxSize := by
  induction s using hardSlices.induct maxSize with
  | case1 s hm => rw [hardSlices, if_pos hm]; simp
  | case2 s hm hle hemp =>
    rw [hardSlices, if_neg hm, if_pos hle, if_pos hemp]
    simp
  | case3 s hm hle hemp =>
    rw [hardSlices, if_neg hm, if_pos hle, if_neg hemp]
    simpa using hle
  | case4 s hm hle ih =>
    rw [hardSlices, if_neg hm, if_neg hle]
    intro t ht
    rcases List.mem_cons.mp ht with ht1 | ht2
    · subst ht1
      simp
    · exact ih t ht2

theorem hardSlices_join (maxSize : Nat) (s : List Char) :
    (hardSlices maxSize s).flatten = if maxSize = 0 then [] else s := by
  induction s using hardSlices.induct maxSize with
  | case1 s hm => rw [hardSlices, if_pos hm, if_pos hm]; rfl
  | case2 s hm hle hemp =>
    rw [hardSlices, if_neg hm, if_pos hle, if_pos hemp, if_neg hm]
    simpa using hemp
  | case3 s hm hle hemp =>
    rw [hardSlices, if_neg hm, if_pos hle, if_neg hemp, if_neg hm]
    simp
  | case4 s hm hle ih =>
    rw [hardSlices, if_neg hm, if_neg hle, if_neg hm]
    rw [List.flatten_cons, ih, if_neg hm, List.take_append_drop]

theorem chunksFromSlices_length (ps : ParserSettings) :
    ∀ (cid : Nat) (ls : List (List Char)),
      (chunksFromSlices ps cid ls).length = ls.length := by
  intro cid ls
  induction ls generalizing cid with
  | nil => rfl
  | cons t ts ih => simp [chunksFromSlices, ih]

theorem packChunks_nil (ps : ParserSettings) (maxSize cid : Nat) (cur : List Char) :
    packChunks ps maxSize cid cur [] =
      if strip cur = [] then []
      else [mkParagraphChunk ps cid (strip cur) (strip cur)] := rfl

theorem packChunks_cons (ps : ParserSettings) (maxSize cid : Nat) (cur s : List Char)
    (rest : List (List Char)) :
    packChunks ps maxSize cid cur (s :: rest) =
      if strip s = [] then packChunks ps maxSize cid cur rest
      else if maxSize < (strip s).length then
        (if cur = [] then [] else [mkParagraphChunk ps cid (strip cur) (strip cur)])
          ++ chunksFromSlices ps
              (cid + (if cur = [] then [] else
                [mkParagraphChunk ps cid (strip cur) (strip cur)]).length)
              (hardSlices maxSize (strip s))
          ++ packChunks ps maxSize
              (cid + (if cur = [] then [] else
                [mkParagraphChunk ps cid (strip cur) (strip cur)]).length
                + (hardSlices maxSize (strip s)).length) [] rest
      else if maxSize < (strip (cur ++ ' ' :: strip s)).length then
        (if cur = [] then packChunks ps maxSize cid (strip s) rest
         else mkParagraphChunk ps cid (strip cur) (strip cur)
           :: packChunks ps maxSize (cid + 1) (strip s) rest)
      else packChunks ps maxSize cid (strip (cur ++ ' ' :: strip s)) rest := rfl

theorem chunksFromSlices_mem (ps : ParserSettings) :
    ∀ (cid : Nat) (ls : List (List Char)) (ch : ContentChunk),
      ch ∈ chunksFromSlices ps cid ls →
      ch.type = ChunkType.paragraph ∧ ch.char_count = ch.text.length ∧
      ch.text ∈ ls := by
  intro cid ls
  induction ls generalizing cid with
  | nil => intro ch h; simp [chunksFromSlices] at h
  | cons t ts ih =>
    intro ch h
    rw [chunksFromSlices] at h
    rcases List.mem_cons.mp h with h1 | h2
    · subst h1
      exact ⟨rfl, rfl, by simp [mkParagraphChunk]⟩
    · obtain ⟨a, b, c⟩ := ih (cid + 1) ch h2
      exact ⟨a, b, by simp [c]⟩

theorem packChunks_mem (ps : ParserSettings) (maxSize : Nat) :
    ∀ (sents : List (List Char)) (cid : Nat) (cur : List Char),
      cur.length ≤ maxSize →
      ∀ ch ∈ packChunks ps maxSize cid cur sents,
        ch.type = ChunkType.paragraph ∧ ch.char_count = ch.text.length ∧
        ch.char_count ≤ maxSize := by
  intro sents
  induction sents with
  | nil =>
    intro cid cur hle ch hch
    rw [packChunks_nil] at hch
    split at hch
    · simp at hch
    · simp at hch
      subst hch
      refine ⟨rfl, rfl, ?_⟩
      calc (strip cur).length ≤ cur.length := strip_length_le cur
        _ ≤ maxSize := hle
  | cons s rest ih =>
    intro cid cur hle ch hch
    rw [packChunks_cons] at hch
    by_cases h1 : strip s = []
    · rw [if_pos h1] at hch
      exact ih cid cur hle ch hch
    rw [if_neg h1] at hch
    by_cases h2 : maxSize < (strip s).length
    · rw [if_pos h2] at hch
      rcases List.mem_append.mp hch with hch1 | hch2
      · rcases List.mem_append.mp hch1 with hchf | hchs
        · by_cases h4 : cur = []
          · rw [if_pos h4] at hchf
            simp at hchf
          · rw [if_neg h4] at hchf
            simp at hchf
            subst hchf
            refine ⟨rfl, rfl, ?_⟩
            calc (strip cur).length ≤ cur.length := strip_length_le cur
              _ ≤ maxSize := hle
        · obtain ⟨a, b, c⟩ := chunksFromSlices_mem ps _ _ ch hchs
          exact ⟨a, b, b ▸ hardSlices_le maxSize (strip s) ch.text c⟩
      · exact ih _ [] (by simp) ch hch2
    rw [if_neg h2] at hch
    by_cases h3 : maxSize < (strip (cur ++ ' ' :: strip s)).length
    · rw [if_pos h3] at hch
      by_cases h4 : cur = []
      · rw [if_pos h4] at hch
        exact ih _ (strip s) (by omega) ch hch
      · rw [if_neg h4] at hch
        rcases List.mem_cons.mp hch with hch1 | hch2
        · subst hch1
          refine ⟨rfl, rfl, ?_⟩
          calc (strip cur).length ≤ cur.length := strip_length_le cur
            _ ≤ maxSize := hle
        · exact ih _ (strip s) (by omega) ch hch2
    · rw [if_neg h3] at hch
      exact ih _ (strip (cur ++ ' ' :: strip s)) (by omega) ch hch

theorem chunksFromSlices_texts (ps : ParserSettings) :
    ∀ (cid : Nat) (ls : List (List Char)),
      (chunksFromSlices ps cid ls).map (fun ch => ch.text) = ls := by
  intro cid ls
  induction ls generalizing cid with
  | nil => rfl
  | cons t ts ih => simp [chunksFromSlices, mkParagraphChunk, ih]

theorem packAll_nil (cur : List Char) : packAll cur [] = cur := rfl

theorem packAll_cons (cur s : List Char) (rest : List (List Char)) :
    packAll cur (s :: rest) =
      if strip s = [] then packAll cur rest
      else packAll (strip (cur ++ ' ' :: strip s)) rest := rfl

theorem filter_space_cons (s : List Char) :
    (' ' :: s).filter (fun c => !isWs c) = s.filter (fun c => !isWs c) := by
  rw [List.filter_cons, if_neg (by simp [isWs])]

theorem packChunks_filter (ps : ParserSettings) (maxSize : Nat) (hm : 0 < maxSize) :
    ∀ (sents : List (List Char)) (cid : Nat) (cur : List Char),
      ((packChunks ps maxSize cid cur sents).map (fun ch => ch.text)).flatten.filter
          (fun c => !isWs c)
        = (cur ++ sents.flatten).filter (fun c => !isWs c) := by
  have hm0 : ¬ maxSize = 0 := by omega
  intro sents
  induction sents with
  | nil =>
    intro cid cur
    rw [packChunks_nil]
    split
    · rename_i h
      simp only [List.map_nil, List.flatten_nil, List.filter_nil, List.append_nil]
      exact (strip_eq_nil_filter cur h).symm
    · simp only [List.map_cons, List.map_nil, List.flatten_cons, List.flatten_nil,
        List.append_nil, mkParagraphChunk, filter_strip]
  | cons s rest ih =>
    intro cid cur
    rw [packChunks_cons]
    by_cases h1 : strip s = []
    · rw [if_pos h1, ih]
      simp only [List.flatten_cons, List.filter_append, ← List.append_assoc]
      rw [strip_eq_nil_filter s h1]
      simp
    rw [if_neg h1]
    by_cases h2 : maxSize < (strip s).length
    · rw [if_pos h2]
      simp only [List.map_append, List.flatten_append, List.filter_append]
      rw [chunksFromSlices_texts, hardSlices_join, if_neg hm0, ih, filter_strip]
      have hflush : ((if cur = [] then []
          else [mkParagraphChunk ps cid (strip cur) (strip cur)]).map
            (fun ch => ch.text)).flatten.filter (fun c => !isWs c)
          = cur.filter (fun c => !isWs c) := by
        split
        · rename_i h4
          subst h4
          rfl
        · simp only [List.map_cons, List.map_nil, List.flatten_cons, List.flatten_nil,
            List.append_nil, mkParagraphChunk, filter_strip]
      rw [hflush]
      simp [List.filter_append]
    rw [if_neg h2]
    by_cases h3 : maxSize < (strip (cur ++ ' ' :: strip s)).length
    · rw [if_pos h3]
      by_cases h4 : cur = []
      · rw [if_pos h4, ih]
        subst h4
        simp only [List.flatten_cons, List.filter_append, List.nil_append]
        rw [filter_strip]
      · rw [if_neg h4]
        simp only [List.map_cons, List.flatten_cons, List.filter_append]
        rw [ih]
        simp only [mkParagraphChunk, List.flatten_cons, List.filter_append,
          List.append_assoc, filter_strip]
    · rw [if_neg h3, ih]
      simp only [List.flatten_cons, List.filter_append, filter_strip,
        filter_space_cons]
      simp [List.filter_append]

theorem strip_filter_of_strip_ne (cur s : List Char) (h1 : strip s ≠ []) :
    strip (cur ++ ' ' :: strip s) ≠ [] := by
  intro htest
  have hfil := strip_eq_nil_filter _ htest
  rw [List.filter_append, filter_space_cons] at hfil
  have h2 := stripped_filter_ne_nil (strip s) (strip_idem s) h1
  exact h2 (List.append_eq_nil.mp hfil).2

theorem packChunks_ne_nil (ps : ParserSettings) (maxSize : Nat) :
    ∀ (sents : List (List Char)) (cid : Nat) (cur : List Char),
      strip cur ≠ [] → packChunks ps maxSize cid cur sents ≠ [] := by
  intro sents
  induction sents with
  | nil =>
    intro cid cur hcur
    rw [packChunks_nil, if_neg hcur]
    simp
  | cons s rest ih =>
    intro cid cur hcur
    rw [packChunks_cons]
    have hcne : cur ≠ [] := by
      intro h
      subst h
      exact hcur rfl
    by_cases h1 : strip s = []
    · rw [if_pos h1]
      exact ih cid cur hcur
    rw [if_neg h1]
    by_cases h2 : maxSize < (strip s).length
    · rw [if_pos h2, if_neg hcne]
      simp
    rw [if_neg h2]
    by_cases h3 : maxSize < (strip (cur ++ ' ' :: strip s)).length
    · rw [if_pos h3, if_neg hcne]
      simp
    · rw [if_neg h3]
      apply ih
      rw [strip_idem]
      exact strip_filter_of_strip_ne cur s h1

theorem packChunks_short (ps : ParserSettings) (maxSize : Nat) (hm : 0 < maxSize) :
    ∀ (sents : List (List Char)) (cid : Nat) (cur : List Char),
      strip cur = cur →
      (packChunks ps maxSize cid cur sents).length ≤ 1 →
      (packChunks ps maxSize cid cur sents).map (fun ch => ch.text)
        = if strip (packAll cur sents) = [] then []
          else [strip (packAll cur sents)] := by
  intro sents
  induction sents with
  | nil =>
    intro cid cur hcur hlen
    rw [packChunks_nil, packAll_nil]
    split
    · rfl
    · rfl
  | cons s rest ih =>
    intro cid cur hcur hlen
    rw [packChunks_cons] at hlen ⊢
    rw [packAll_cons]
    by_cases h1 : strip s = []
    · rw [if_pos h1] at hlen
      rw [if_pos h1, if_pos h1]
      exact ih cid cur hcur hlen
    rw [if_neg h1] at hlen
    rw [if_neg h1, if_neg h1]
    by_cases h2 : maxSize < (strip s).length
    · exfalso
      rw [if_pos h2] at hlen
      have hs2 := hardSlices_two maxSize (strip s) hm h2
      rw [List.length_append, List.length_append, chunksFromSlices_length] at hlen
      omega
    rw [if_neg h2] at hlen ⊢
    by_cases h3 : maxSize < (strip (cur ++ ' ' :: strip s)).length
    · exfalso
      rw [if_pos h3] at hlen
      by_cases h4 : cur = []
      · subst h4
        rw [List.nil_append, strip_cons_space, strip_idem] at h3
        omega
      · rw [if_neg h4] at hlen
        have hne := packChunks_ne_nil ps maxSize rest (cid + 1) (strip s)
          (by rw [strip_idem]; exact h1)
        rw [List.length_cons] at hlen
        cases hrec : packChunks ps maxSize (cid + 1) (strip s) rest with
        | nil => exact hne hrec
        | cons a t => rw [hrec] at hlen; simp at hlen
    · rw [if_neg h3] at hlen ⊢
      exact ih _ _ (strip_idem _) hlen

theorem packAll_stripped : ∀ (sents : List (List Char)) (cur : List Char),
    strip cur = cur →
    (∀ s ∈ sents, strip s = s ∧ s ≠ []) →
    packAll cur sents = (if cur = [] then joinSp sents else joinSp (cur :: sents)) := by
  intro sents
  induction sents with
  | nil =>
    intro cur hcur hall
    rw [packAll_nil]
    split
    · rename_i h
      rw [h]
      rfl
    · rfl
  | cons s rest ih =>
    intro cur hcur hall
    obtain ⟨hs, hsne⟩ := hall s (by simp)
    rw [packAll_cons, hs, if_neg hsne, strip_append_sp cur s hcur hs hsne]
    by_cases h4 : cur = []
    · rw [if_pos h4, if_pos h4]
      subst h4
      rw [ih s hs (fun t ht => hall t (by simp [ht])), if_neg hsne]
    · rw [if_neg h4, if_neg h4]
      have hinv : strip (cur ++ ' ' :: s) = cur ++ ' ' :: s := by
        have h5 := strip_append_sp cur s hcur hs hsne
        rw [if_neg h4] at h5
        exact h5
      rw [ih (cur ++ ' ' :: s) hinv (fun t ht => hall t (by simp [ht]))]
      rw [if_neg (by simp)]
      cases rest with
      | nil => rfl
      | cons q qs =>
        rw [joinSp_cons (cur ++ ' ' :: s) (q :: qs) (by simp),
          joinSp_cons cur (s :: q :: qs) (by simp),
          joinSp_cons s (q :: qs) (by simp)]
        simp

theorem filter_joinSp (ls : List (List Char)) :
    (joinSp ls).filter (fun c => !isWs c)
      = ls.flatten.filter (fun c => !isWs c) := by
  induction ls with
  | nil => rfl
  | cons l ls ih =>
    cases ls with
    | nil => simp [joinSp]
    | cons q qs =>
      rw [joinSp_cons _ _ (by simp), List.flatten_cons, List.filter_append,
        List.filter_append, filter_space_cons, ih]

/-! ### Claim theorems: the chunker -/

/-- C3: for every whitespace-normalized paragraph text longer than
`max_chunk_chars` (with a positive limit), the chunker produces at least 2
sibling PARAGRAPH chunks, each with `char_count` equal to its text length
and at most `max_chunk_chars` (the bound holding for the hard-split
fallback slices as well), and the chunks cover the text: their concatenated
texts carry exactly the non-whitespace characters of the input, in order. -/
theorem c3_long_paragraph_split (ps : ParserSettings) (maxSize startId : Nat)
    (text raw : List Char) (hnorm : normalizedText text = true)
    (hlen : maxSize < text.length) (hm : 0 < maxSize) :
    2 ≤ (createParagraphChunks ps maxSize startId text raw).length ∧
    (∀ ch ∈ createParagraphChunks ps maxSize startId text raw,
      ch.type = ChunkType.paragraph ∧ ch.char_count = ch.text.length ∧
      ch.char_count ≤ maxSize) ∧
    ((createParagraphChunks ps maxSize startId text raw).map
        (fun ch => ch.text)).flatten.filter (fun c => !isWs c)
      = text.filter (fun c => !isWs c) := by
  have htne : text ≠ [] := by
    intro h
    rw [h] at hlen
    simp at hlen
  obtain ⟨hsents_eq, hpieces⟩ := splitIntoSentences_normalized text hnorm htne
  have hcreate : createParagraphChunks ps maxSize startId text raw
      = packChunks ps maxSize startId [] (splitRaw [] text) := by
    rw [createParagraphChunks, if_neg (by omega), hsents_eq]
  refine ⟨?_, ?_, ?_⟩
  · by_contra hlt
    push_neg at hlt
    have hshort := packChunks_short ps maxSize hm (splitRaw [] text) startId [] rfl
      (by rw [← hcreate]; omega)
    rw [← hcreate] at hshort
    have hpa : packAll [] (splitRaw [] text) = text := by
      rw [packAll_stripped (splitRaw [] text) [] rfl hpieces, if_pos rfl]
      exact joinSp_splitRaw_normalized text hnorm
    rw [hpa, strip_eq_self_of_normalized text hnorm, if_neg htne] at hshort
    cases hcs : createParagraphChunks ps maxSize startId text raw with
    | nil =>
      rw [hcs] at hshort
      simp at hshort
    | cons ch tl =>
      rw [hcs] at hshort
      simp at hshort
      obtain ⟨hcht, htl⟩ := hshort
      obtain ⟨_, hcount, hle⟩ := packChunks_mem ps maxSize (splitRaw [] text)
        startId [] (by simp) ch (by rw [← hcreate, hcs]; simp)
      rw [hcount, hcht] at hle
      omega
  · intro ch hch
    rw [hcreate] at hch
    exact packChunks_mem ps maxSize _ startId [] (by simp) ch hch
  · rw [hcreate, packChunks_filter ps maxSize hm]
    simp only [List.nil_append]
    have hj := filter_joinSp (splitRaw [] text)
    rw [joinSp_splitRaw_normalized text hnorm] at hj
    exact hj.symm

theorem c3_long_paragraph_split_witness :
    2 ≤ (createParagraphChunks {} 3 0 ['a', 'b', ' ', 'c', 'd'] ['a', 'b', ' ', 'c', 'd']).length ∧
    (∀ ch ∈ createParagraphChunks {} 3 0 ['a', 'b', ' ', 'c', 'd'] ['a', 'b', ' ', 'c', 'd'],
      ch.type = ChunkType.paragraph ∧ ch.char_count = ch.text.length ∧
      ch.char_count ≤ 3) ∧
    ((createParagraphChunks {} 3 0 ['a', 'b', ' ', 'c', 'd'] ['a', 'b', ' ', 'c', 'd']).map
        (fun ch => ch.text)).flatten.filter (fun c => !isWs c)
      = ['a', 'b', ' ', 'c', 'd'].filter (fun c => !isWs c) :=
  c3_long_paragraph_split {} 3 0 ['a', 'b', ' ', 'c', 'd'] ['a', 'b', ' ', 'c', 'd']
    (by decide) (by decide) (by decide)

theorem strip_of_all_not_ws (l : List Char) (h : ∀ c ∈ l, isWs c = false) :
    strip l = l := by
  apply strip_eq_self
  · intro c hc
    exact h c (List.mem_of_mem_head? (by rw [hc]; simp))
  · intro c hc
    exact h c (List.mem_of_getLast?_eq_some hc)

/-- C4: a single normalized paragraph of exactly 5000 characters with no
sentence-terminating punctuation, chunked with `max_chunk_chars = 2000`,
yields exactly 3 chunks with char_counts 2000, 2000, 1000 in that order,
each of kind PARAGRAPH. -/
theorem c4_hard_split_5000 (ps : ParserSettings) (startId : Nat)
    (text raw : List Char) (hlen : text.length = 5000)
    (hterm : ∀ c ∈ text, isTerm c = false) (hstrip : strip text = text) :
    (createParagraphChunks ps 2000 startId text raw).map (fun ch => ch.char_count)
        = [2000, 2000, 1000] ∧
    (createParagraphChunks ps 2000 startId text raw).map (fun ch => ch.type)
        = [ChunkType.paragraph, ChunkType.paragraph, ChunkType.paragraph] := by
  have htne : text ≠ [] := by
    intro h
    rw [h] at hlen
    simp at hlen
  have hsents : splitIntoSentences text = [text] := by
    rw [splitIntoSentences, splitRaw_no_term [] text hterm]
    simp only [List.reverse_nil, List.nil_append, List.map_cons, List.map_nil, hstrip]
    rw [List.filter_cons, if_pos (by simpa using htne)]
    rfl
  have hcreate : createParagraphChunks ps 2000 startId text raw
      = packChunks ps 2000 startId [] [text] := by
    rw [createParagraphChunks, if_neg (by omega), hsents]
  have hslices : hardSlices 2000 text
      = [text.take 2000, (text.drop 2000).take 2000, (text.drop 2000).drop 2000] := by
    rw [hardSlices, if_neg (by omega), if_neg (by omega)]
    rw [hardSlices, if_neg (by omega), if_neg (by simp [hlen])]
    rw [hardSlices, if_neg (by omega), if_pos (by simp [hlen]),
      if_neg (by simp [List.isEmpty_iff, hlen])]
  have hpack : packChunks ps 2000 startId [] [text]
      = chunksFromSlices ps startId (hardSlices 2000 text) := by
    rw [packChunks_cons, if_neg (by rw [hstrip]; exact htne),
      if_pos (by rw [hstrip]; omega), if_pos rfl, hstrip, packChunks_nil]
    simp [show strip ([] : List Char) = [] from rfl]
  rw [hcreate, hpack, hslices]
  constructor
  · simp only [chunksFromSlices, mkParagraphChunk, List.map_cons, List.map_nil]
    simp [hlen]
  · simp [chunksFromSlices, mkParagraphChunk]

theorem c4_hard_split_5000_witness :
    (createParagraphChunks {} 2000 0 (List.replicate 5000 'a')
        (List.replicate 5000 'a')).map (fun ch => ch.char_count)
      = [2000, 2000, 1000] ∧
    (createParagraphChunks {} 2000 0 (List.replicate 5000 'a')
        (List.replicate 5000 'a')).map (fun ch => ch.type)
      = [ChunkType.paragraph, ChunkType.paragraph, ChunkType.paragraph] :=
  c4_hard_split_5000 {} 0 (List.replicate 5000 'a') (List.replicate 5000 'a')
    (List.length_replicate 5000 'a')
    (fun c hc => by rw [List.eq_of_mem_replicate hc]; decide)
    (strip_of_all_not_ws _ (fun c hc => by
      rw [List.eq_of_mem_replicate hc]
      decide))

/-! ### Chunk-id sequencing lemmas -/

theorem chunksFromSlices_ids (ps : ParserSettings) :
    ∀ (cid : Nat) (ls : List (List Char)),
      (chunksFromSlices ps cid ls).map (fun ch => ch.id)
        = List.range' cid ls.length := by
  intro cid ls
  induction ls generalizing cid with
  | nil => rfl
  | cons t ts ih =>
    rw [chunksFromSlices, List.map_cons, ih, List.length_cons, List.range'_succ]
    rfl

theorem packChunks_ids (ps : ParserSettings) (maxSize : Nat) :
    ∀ (sents : List (List Char)) (cid : Nat) (cur : List Char),
      (packChunks ps maxSize cid cur sents).map (fun ch => ch.id)
        = List.range' cid (packChunks ps maxSize cid cur sents).length := by
  intro sents
  induction sents with
  | nil =>
    intro cid cur
    rw [packChunks_nil]
    split
    · rfl
    · rfl
  | cons s rest ih =>
    intro cid cur
    rw [packChunks_cons]
    by_cases h1 : strip s = []
    · rw [if_pos h1]
      exact ih cid cur
    rw [if_neg h1]
    by_cases h2 : maxSize < (strip s).length
    · rw [if_pos h2]
      by_cases h4 : cur = []
      · rw [if_pos h4]
        simp only [List.nil_append, List.length_nil, List.map_append,
          chunksFromSlices_ids, ih, List.length_append, chunksFromSlices_length,
          Nat.add_zero, Nat.zero_add]
        rw [List.range'_append_1, Nat.add_comm]
      · rw [if_neg h4]
        simp only [List.map_append, List.map_cons, List.map_nil,
          chunksFromSlices_ids, ih, List.length_append, List.length_cons,
          List.length_nil, chunksFromSlices_length, Nat.zero_add]
        rw [show ([(mkParagraphChunk ps cid (strip cur) (strip cur)).id]
            : List Nat) = List.range' cid 1 from rfl]
        rw [List.range'_append_1]
        rw [show cid + 1 + (hardSlices maxSize (strip s)).length
            = cid + ((hardSlices maxSize (strip s)).length + 1) from by omega]
        rw [List.range'_append_1]
        congr 1
        omega
    rw [if_neg h2]
    by_cases h3 : maxSize < (strip (cur ++ ' ' :: strip s)).length
    · rw [if_pos h3]
      by_cases h4 : cur = []
      · rw [if_pos h4]
        exact ih cid (strip s)
      · rw [if_neg h4]
        rw [List.map_cons, ih, List.length_cons, List.range'_succ]
        rfl
    · rw [if_neg h3]
      exact ih cid (strip (cur ++ ' ' :: strip s))

theorem createParagraphChunks_ids (ps : ParserSettings) (maxSize startId : Nat)
    (text raw : List Char) :
    (createParagraphChunks ps maxSize startId text raw).map (fun ch => ch.id)
      = List.range' startId (createParagraphChunks ps maxSize startId text raw).length := by
  rw [createParagraphChunks]
  split
  · rfl
  · exact packChunks_ids ps maxSize _ startId []

theorem bulletChunksLoop_ids (ps : ParserSettings) :
    ∀ (lines : List (List Char)) (cid : Nat),
      (bulletChunksLoop ps cid lines).map (fun ch => ch.id)
        = List.range' cid (bulletChunksLoop ps cid lines).length := by
  intro lines
  induction lines with
  | nil => intro cid; rfl
  | cons rawLine rest ih =>
    intro cid
    rw [bulletChunksLoop]
    split
    · exact ih cid
    · cases matchBulletLine (strip rawLine) with
      | some g =>
        rw [List.map_cons, ih, List.length_cons, List.range'_succ]
        rfl
      | none =>
        cases matchNumberedLine (strip rawLine) with
        | some g =>
          rw [List.map_cons, ih, List.length_cons, List.range'_succ]
          rfl
        | none => exact ih cid

theorem processBlock_ids (ps : ParserSettings) (maxSize : Nat) (block : List Char)
    (startId : Nat) :
    (processBlock ps maxSize block startId).map (fun ch => ch.id)
      = List.range' startId (processBlock ps maxSize block startId).length := by
  rw [processBlock]
  cases matchH1 block with
  | some g => rfl
  | none =>
    dsimp only
    cases matchH2 block with
    | some g => rfl
    | none =>
      dsimp only
      cases matchH3 block with
      | some g => rfl
      | none =>
        dsimp only
        split
        · exact bulletChunksLoop_ids ps _ startId
        · cases matchBlockquoteLine block with
          | some g =>
            dsimp only
            exact createParagraphChunks_ids ps maxSize startId _ block
          | none =>
            dsimp only
            exact createParagraphChunks_ids ps maxSize startId _ block

theorem parseLoop_cons (ps : ParserSettings) (maxSize cid : Nat) (b : List Char)
    (rest : List (List Char)) :
    parseLoop ps maxSize cid (b :: rest) =
      if strip b = [] then parseLoop ps maxSize cid rest
      else processBlock ps maxSize (strip b) cid
        ++ parseLoop ps maxSize (cid + (processBlock ps maxSize (strip b) cid).length)
            rest := rfl

theorem parseLoop_ids (ps : ParserSettings) (maxSize : Nat) :
    ∀ (blocks : List (List Char)) (cid : Nat),
      (parseLoop ps maxSize cid blocks).map (fun ch => ch.id)
        = List.range' cid (parseLoop ps maxSize cid blocks).length := by
  intro blocks
  induction blocks with
  | nil => intro cid; rfl
  | cons b rest ih =>
    intro cid
    rw [parseLoop_cons]
    split
    · exact ih cid
    · rw [List.map_append, processBlock_ids, ih, List.length_append,
        List.range'_append_1, Nat.add_comm]

/-- C2: for every input text and chunk-size limit, the ids of the chunk
sequence returned by the parser are exactly 0, 1, ..., n-1 in output order:
unique, dense from 0, strictly increasing, and not reset per block. -/
theorem c2_chunk_ids_dense (ps : ParserSettings) (maxSize : Nat)
    (content : List Char) :
    (parseContentChunks ps maxSize content).map (fun ch => ch.id)
      = List.range (parseContentChunks ps maxSize content).length := by
  rw [parseContentChunks, parseLoop_ids, List.range_eq_range']

/-! ### Helper lemmas about the inline-markup substitutions -/

theorem plain_spec (c : Char) (h : plainChar c = true) :
    c ≠ '*' ∧ c ≠ '[' ∧ c ≠ ']' ∧ c ≠ '(' ∧ c ≠ ')' ∧ c ≠ backtick ∧
    c ≠ '\\' ∧ c ≠ '!' ∧ c ≠ '-' ∧ c ≠ '_' ∧ c ≠ '\n' := by
  rw [plainChar] at h
  simp only [Bool.not_eq_true', Bool.or_eq_false_iff, decide_eq_false_iff_not,
    Bool.and_eq_false_iff, Bool.not_eq_false'] at h
  obtain ⟨⟨⟨⟨⟨⟨⟨⟨⟨⟨h1, h2⟩, h3⟩, h4⟩, h5⟩, h6⟩, h7⟩, h8⟩, h9⟩, h10⟩, h11⟩ := h
  refine ⟨h1, h2, h3, h4, h5, h6, h7, h8, h9, h10, ?_⟩
  intro hc
  subst hc
  rcases h11 with h11 | h11
  · simp [isWs] at h11
  · simp at h11

theorem boldSub_cons_eq (c : Char) (l : List Char) :
    boldSub (c :: l) =
      if c = '*' ∧ l.take 1 = ['*'] then
        if (l.tail.takeWhile (fun d => d ≠ '*')) ≠ [] ∧
            ((l.tail.drop (l.tail.takeWhile (fun d => d ≠ '*')).length).take 2
              = ['*', '*']) then
          (l.tail.takeWhile (fun d => d ≠ '*'))
            ++ boldSub ((l.tail.drop
                (l.tail.takeWhile (fun d => d ≠ '*')).length).drop 2)
        else c :: boldSub l
      else c :: boldSub l := by
  rw [boldSub.eq_def]

theorem italicSub_cons_eq (c : Char) (l : List Char) :
    italicSub (c :: l) =
      if c = '*' then
        if (l.takeWhile (fun d => d ≠ '*')) ≠ [] ∧
            ((l.drop (l.takeWhile (fun d => d ≠ '*')).length).take 1 = ['*']) then
          (l.takeWhile (fun d => d ≠ '*'))
            ++ italicSub ((l.drop (l.takeWhile (fun d => d ≠ '*')).length).drop 1)
        else c :: italicSub l
      else c :: italicSub l := by
  rw [italicSub.eq_def]

theorem linkSub_cons_eq (c : Char) (l : List Char) :
    linkSub (c :: l) =
      if c = '[' then
        if (l.takeWhile (fun d => d ≠ ']')) ≠ [] ∧
            (l.drop (l.takeWhile (fun d => d ≠ ']')).length).take 2 = [']', '('] ∧
            (((l.drop (l.takeWhile (fun d => d ≠ ']')).length).drop 2).takeWhile
              (fun d => d ≠ ')')) ≠ [] ∧
            ((((l.drop (l.takeWhile (fun d => d ≠ ']')).length).drop 2).drop
              (((l.drop (l.takeWhile (fun d => d ≠ ']')).length).drop 2).takeWhile
                (fun d => d ≠ ')')).length).take 1 = [')']) then
          (l.takeWhile (fun d => d ≠ ']'))
            ++ linkSub ((((l.drop (l.takeWhile (fun d => d ≠ ']')).length).drop 2).drop
              (((l.drop (l.takeWhile (fun d => d ≠ ']')).length).drop 2).takeWhile
                (fun d => d ≠ ')')).length).drop 1)
        else c :: linkSub l
      else c :: linkSub l := by
  rw [linkSub.eq_def]

theorem imageSub_cons_pass (c : Char) (l : List Char)
    (hc : ¬(c = '!' ∧ l.take 1 = ['['])) :
    imageSub (c :: l) = c :: imageSub l := by
  rw [imageSub.eq_def]
  simp only [if_neg hc]

theorem codeSpanSub_cons_eq (c : Char) (l : List Char) :
    codeSpanSub (c :: l) =
      if c = backtick then
        if (l.takeWhile (fun d => d ≠ backtick)) ≠ [] ∧
            ((l.drop (l.takeWhile (fun d => d ≠ backtick)).length).take 1
              = [backtick]) then
          (l.takeWhile (fun d => d ≠ backtick))
            ++ codeSpanSub ((l.drop
                (l.takeWhile (fun d => d ≠ backtick)).length).drop 1)
        else c :: codeSpanSub l
      else c :: codeSpanSub l := by
  rw [codeSpanSub.eq_def]

theorem boldSub_cons_pass (c : Char) (l : List Char)
    (hc : ¬(c = '*' ∧ l.take 1 = ['*'])) :
    boldSub (c :: l) = c :: boldSub l := by
  rw [boldSub.eq_def]
  simp only [if_neg hc]

theorem italicSub_cons_pass (c : Char) (l : List Char) (hc : c ≠ '*') :
    italicSub (c :: l) = c :: italicSub l := by
  rw [italicSub_cons_eq, if_neg hc]

theorem linkSub_cons_pass (c : Char) (l : List Char) (hc : c ≠ '[') :
    linkSub (c :: l) = c :: linkSub l := by
  rw [linkSub_cons_eq, if_neg hc]

theorem codeSpanSub_cons_pass (c : Char) (l : List Char) (hc : c ≠ backtick) :
    codeSpanSub (c :: l) = c :: codeSpanSub l := by
  rw [codeSpanSub_cons_eq, if_neg hc]

theorem boldSub_nil : boldSub [] = [] := by rw [boldSub.eq_def]

theorem italicSub_nil : italicSub [] = [] := by rw [italicSub.eq_def]

theorem linkSub_nil : linkSub [] = [] := by rw [linkSub.eq_def]

theorem imageSub_nil : imageSub [] = [] := by rw [imageSub.eq_def]

theorem codeSpanSub_nil : codeSpanSub [] = [] := by rw [codeSpanSub.eq_def]

theorem boldSub_of_free (l : List Char) (h : ∀ c ∈ l, c ≠ '*') : boldSub l = l := by
  induction l with
  | nil => rw [boldSub.eq_def]
  | cons c t ih =>
    rw [boldSub_cons_pass c t (by simp [h c (by simp)]), ih (fun d hd => h d (by simp [hd]))]

theorem italicSub_of_free (l : List Char) (h : ∀ c ∈ l, c ≠ '*') :
    italicSub l = l := by
  induction l with
  | nil => rw [italicSub.eq_def]
  | cons c t ih =>
    rw [italicSub_cons_pass c t (h c (by simp)), ih (fun d hd => h d (by simp [hd]))]

theorem linkSub_of_free (l : List Char) (h : ∀ c ∈ l, c ≠ '[') : linkSub l = l := by
  induction l with
  | nil => rw [linkSub.eq_def]
  | cons c t ih =>
    rw [linkSub_cons_pass c t (h c (by simp)), ih (fun d hd => h d (by simp [hd]))]

theorem imageSub_of_free (l : List Char) (h : ∀ c ∈ l, c ≠ '!') : imageSub l = l := by
  induction l with
  | nil => rw [imageSub.eq_def]
  | cons c t ih =>
    rw [imageSub_cons_pass c t (by simp [h c (by simp)]),
      ih (fun d hd => h d (by simp [hd]))]

theorem codeSpanSub_of_free (l : List Char) (h : ∀ c ∈ l, c ≠ backtick) :
    codeSpanSub l = l := by
  induction l with
  | nil => rw [codeSpanSub.eq_def]
  | cons c t ih =>
    rw [codeSpanSub_cons_pass c t (h c (by simp)),
      ih (fun d hd => h d (by simp [hd]))]

theorem boldSub_append_plain (a l : List Char) (ha : ∀ c ∈ a, c ≠ '*') :
    boldSub (a ++ l) = a ++ boldSub l := by
  induction a with
  | nil => rfl
  | cons c t ih =>
    rw [List.cons_append, boldSub_cons_pass c _ (by simp [ha c (by simp)]),
      ih (fun d hd => ha d (by simp [hd])), List.cons_append]

theorem italicSub_append_plain (a l : List Char) (ha : ∀ c ∈ a, c ≠ '*') :
    italicSub (a ++ l) = a ++ italicSub l := by
  induction a with
  | nil => rfl
  | cons c t ih =>
    rw [List.cons_append, italicSub_cons_pass c _ (ha c (by simp)),
      ih (fun d hd => ha d (by simp [hd])), List.cons_append]

theorem linkSub_append_plain (a l : List Char) (ha : ∀ c ∈ a, c ≠ '[') :
    linkSub (a ++ l) = a ++ linkSub l := by
  induction a with
  | nil => rfl
  | cons c t ih =>
    rw [List.cons_append, linkSub_cons_pass c _ (ha c (by simp)),
      ih (fun d hd => ha d (by simp [hd])), List.cons_append]

theorem codeSpanSub_append_plain (a l : List Char) (ha : ∀ c ∈ a, c ≠ backtick) :
    codeSpanSub (a ++ l) = a ++ codeSpanSub l := by
  induction a with
  | nil => rfl
  | cons c t ih =>
    rw [List.cons_append, codeSpanSub_cons_pass c _ (ha c (by simp)),
      ih (fun d hd => ha d (by simp [hd])), List.cons_append]

theorem takeWhile_all_append (p : Char → Bool) (x y : List Char)
    (hx : ∀ c ∈ x, p c = true) :
    (x ++ y).takeWhile p = x ++ y.takeWhile p := by
  induction x with
  | nil => rfl
  | cons c t ih =>
    rw [List.cons_append, List.takeWhile_cons, if_pos (hx c (by simp)),
      ih (fun d hd => hx d (by simp [hd])), List.cons_append]

theorem boldSub_removes (x b : List Char) (hx : ∀ c ∈ x, c ≠ '*') (hxne : x ≠ [])
    (hb : ∀ c ∈ b, c ≠ '*') :
    boldSub ('*' :: '*' :: (x ++ '*' :: '*' :: b)) = x ++ b := by
  have htw : (x ++ '*' :: '*' :: b).takeWhile (fun d => d ≠ '*') = x := by
    rw [takeWhile_all_append _ x _ (fun c hc => by simp [hx c hc]),
      List.takeWhile_cons]
    simp
  rw [boldSub_cons_eq, if_pos ⟨rfl, rfl⟩]
  simp only [List.tail_cons]
  rw [htw, if_pos ⟨hxne, by rw [List.drop_left]; rfl⟩, List.drop_left]
  simp only [List.drop_succ_cons, List.drop_zero]
  rw [boldSub_of_free b hb]

theorem italicSub_removes (x b : List Char) (hx : ∀ c ∈ x, c ≠ '*') (hxne : x ≠ [])
    (hb : ∀ c ∈ b, c ≠ '*') :
    italicSub ('*' :: (x ++ '*' :: b)) = x ++ b := by
  have htw : (x ++ '*' :: b).takeWhile (fun d => d ≠ '*') = x := by
    rw [takeWhile_all_append _ x _ (fun c hc => by simp [hx c hc]),
      List.takeWhile_cons]
    simp
  rw [italicSub_cons_eq, if_pos rfl, htw,
    if_pos ⟨hxne, by rw [List.drop_left]; rfl⟩, List.drop_left]
  simp only [List.drop_succ_cons, List.drop_zero]
  rw [italicSub_of_free b hb]

theorem linkSub_removes (x u b : List Char) (hx : ∀ c ∈ x, c ≠ ']') (hxne : x ≠ [])
    (hu : ∀ c ∈ u, c ≠ ')') (hune : u ≠ []) (hb : ∀ c ∈ b, c ≠ '[') :
    linkSub ('[' :: (x ++ ']' :: '(' :: (u ++ ')' :: b))) = x ++ b := by
  have htw1 : (x ++ ']' :: '(' :: (u ++ ')' :: b)).takeWhile (fun d => d ≠ ']')
      = x := by
    rw [takeWhile_all_append _ x _ (fun c hc => by simp [hx c hc]),
      List.takeWhile_cons]
    simp
  have htw2 : (u ++ ')' :: b).takeWhile (fun d => d ≠ ')') = u := by
    rw [takeWhile_all_append _ u _ (fun c hc => by simp [hu c hc]),
      List.takeWhile_cons]
    simp
  rw [linkSub_cons_eq, if_pos rfl, htw1, List.drop_left]
  simp only [List.drop_succ_cons, List.drop_zero]
  rw [htw2, List.drop_left]
  rw [if_pos ⟨hxne, rfl, by simpa using hune, rfl⟩]
  simp only [List.drop_succ_cons, List.drop_zero]
  rw [linkSub_of_free b hb]

theorem codeSpanSub_removes (x b : List Char) (hx : ∀ c ∈ x, c ≠ backtick)
    (hxne : x ≠ []) (hb : ∀ c ∈ b, c ≠ backtick) :
    codeSpanSub (backtick :: (x ++ backtick :: b)) = x ++ b := by
  have htw : (x ++ backtick :: b).takeWhile (fun d => d ≠ backtick) = x := by
    rw [takeWhile_all_append _ x _ (fun c hc => by simp [hx c hc]),
      List.takeWhile_cons]
    simp
  rw [codeSpanSub_cons_eq, if_pos rfl, htw,
    if_pos ⟨hxne, by rw [List.drop_left]; rfl⟩, List.drop_left]
  simp only [List.drop_succ_cons, List.drop_zero]
  rw [codeSpanSub_of_free b hb]

/-- C5 counterexample: parsing the markdown `a**b` — an unpaired bold
marker — produces a single chunk whose speakable text is `a**b` itself,
which still contains the literal `**`. -/
theorem c5_counterexample_unpaired_markers :
    (parseContentChunks {} 2000 ['a', '*', '*', 'b']).map (fun ch => ch.text)
      = [['a', '*', '*', 'b']] ∧
    ['*', '*'] <:+: ['a', '*', '*', 'b'] := by
  constructor
  · simp [parseContentChunks, splitBlocks, splitBlocksAux, codeBlockSub, findTriple,
      parseLoop, strip, processBlock, matchH1, matchH2, matchH3, matchTail,
      searchBullet, searchNumbered, lineStarts, tailsAfterNewline, matchBulletLine,
      matchNumberedLine, isBulletMarker, matchBlockquoteLine, createParagraphChunks,
      cleanForTTS, boldSub, italicSub, linkSub, imageSub, codeSpanSub, hrSub,
      splitLines, joinLines, isHrLine, collapseWs, stripBackslash, isWs, backtick,
      mkParagraphChunk]
  · exact ⟨['a'], ['b'], rfl⟩

/-- C5 (amended): the cleaning pipeline removes each *well-formed* markdown
construct — paired bold `**x**`, paired italic `*x*`, complete link
`[x](u)`, paired inline code — when the surrounding text is free of marker
characters; cleaning the construct equals cleaning the same text with the
markers already removed.  Unpaired or overlapping markers (as in the
counterexample) survive verbatim. -/
theorem c5_wellformed_markers_removed (a x u b : List Char)
    (ha : ∀ c ∈ a, plainChar c = true) (hx : ∀ c ∈ x, plainChar c = true)
    (hb : ∀ c ∈ b, plainChar c = true) (hxne : x ≠ []) :
    cleanForTTS (a ++ ('*' :: '*' :: (x ++ ('*' :: '*' :: b))))
        = cleanForTTS (a ++ (x ++ b)) ∧
    cleanForTTS (a ++ ('*' :: (x ++ ('*' :: b)))) = cleanForTTS (a ++ (x ++ b)) ∧
    ((∀ c ∈ u, plainChar c = true) → u ≠ [] →
      cleanForTTS (a ++ ('[' :: (x ++ (']' :: '(' :: (u ++ (')' :: b))))))
        = cleanForTTS (a ++ (x ++ b))) ∧
    cleanForTTS (a ++ (backtick :: (x ++ (backtick :: b))))
        = cleanForTTS (a ++ (x ++ b)) := by
  have hsa : ∀ c ∈ a, c ≠ '*' := fun c hc => (plain_spec c (ha c hc)).1
  have hsx : ∀ c ∈ x, c ≠ '*' := fun c hc => (plain_spec c (hx c hc)).1
  have hsb : ∀ c ∈ b, c ≠ '*' := fun c hc => (plain_spec c (hb c hc)).1
  have haxb : ∀ c ∈ a ++ (x ++ b), plainChar c = true := by
    intro c hc
    rcases List.mem_append.mp hc with h | h
    · exact ha c h
    · rcases List.mem_append.mp h with h | h
      · exact hx c h
      · exact hb c h
  have hrhs : cleanForTTS (a ++ (x ++ b))
      = strip (stripBackslash (collapseWs (hrSub (a ++ (x ++ b))))) := by
    rw [cleanForTTS,
      boldSub_of_free _ (fun c hc => (plain_spec c (haxb c hc)).1),
      italicSub_of_free _ (fun c hc => (plain_spec c (haxb c hc)).1),
      linkSub_of_free _ (fun c hc => (plain_spec c (haxb c hc)).2.1),
      imageSub_of_free _ (fun c hc => (plain_spec c (haxb c hc)).2.2.2.2.2.2.2.1),
      codeSpanSub_of_free _ (fun c hc => (plain_spec c (haxb c hc)).2.2.2.2.2.1)]
  refine ⟨?_, ?_, ?_, ?_⟩
  · rw [cleanForTTS, boldSub_append_plain a _ hsa, boldSub_removes x b hsx hxne hsb,
      italicSub_of_free _ (fun c hc => (plain_spec c (haxb c hc)).1),
      linkSub_of_free _ (fun c hc => (plain_spec c (haxb c hc)).2.1),
      imageSub_of_free _ (fun c hc => (plain_spec c (haxb c hc)).2.2.2.2.2.2.2.1),
      codeSpanSub_of_free _ (fun c hc => (plain_spec c (haxb c hc)).2.2.2.2.2.1),
      hrhs]
  · obtain ⟨y, ys, rfl⟩ : ∃ y ys, x = y :: ys := by
      cases x with
      | nil => exact absurd rfl hxne
      | cons y ys => exact ⟨y, ys, rfl⟩
    have hy : y ≠ '*' := hsx y (by simp)
    rw [cleanForTTS, boldSub_append_plain a _ hsa,
      boldSub_cons_pass '*' _ (by
        rintro ⟨-, htake⟩
        simp at htake
        exact hy htake),
      boldSub_append_plain (y :: ys) _ hsx,
      boldSub_cons_pass '*' b (by
        rintro ⟨-, htake⟩
        cases hb0 : b with
        | nil => rw [hb0] at htake; simp at htake
        | cons d t =>
          rw [hb0] at htake
          simp at htake
          exact hsb d (by rw [hb0]; simp) htake),
      boldSub_of_free b hsb,
      italicSub_append_plain a _ hsa, italicSub_removes (y :: ys) b hsx (by simp) hsb,
      linkSub_of_free _ (fun c hc => (plain_spec c (haxb c hc)).2.1),
      imageSub_of_free _ (fun c hc => (plain_spec c (haxb c hc)).2.2.2.2.2.2.2.1),
      codeSpanSub_of_free _ (fun c hc => (plain_spec c (haxb c hc)).2.2.2.2.2.1),
      hrhs]
  · intro hu hune
    have hwhole : ∀ c ∈ a ++ ('[' :: (x ++ (']' :: '(' :: (u ++ (')' :: b))))),
        c ≠ '*' ∧ c ≠ '!' := by
      intro c hc
      rcases List.mem_append.mp hc with h | h
      · exact ⟨(plain_spec c (ha c h)).1, (plain_spec c (ha c h)).2.2.2.2.2.2.2.1⟩
      rcases List.mem_cons.mp h with h | h
      · subst h
        exact ⟨by decide, by decide⟩
      rcases List.mem_append.mp h with h | h
      · exact ⟨(plain_spec c (hx c h)).1, (plain_spec c (hx c h)).2.2.2.2.2.2.2.1⟩
      rcases List.mem_cons.mp h with h | h
      · subst h
        exact ⟨by decide, by decide⟩
      rcases List.mem_cons.mp h with h | h
      · subst h
        exact ⟨by decide, by decide⟩
      rcases List.mem_append.mp h with h | h
      · exact ⟨(plain_spec c (hu c h)).1, (plain_spec c (hu c h)).2.2.2.2.2.2.2.1⟩
      rcases List.mem_cons.mp h with h | h
      · subst h
        exact ⟨by decide, by decide⟩
      · exact ⟨(plain_spec c (hb c h)).1, (plain_spec c (hb c h)).2.2.2.2.2.2.2.1⟩
    rw [cleanForTTS,
      boldSub_of_free _ (fun c hc => (hwhole c hc).1),
      italicSub_of_free _ (fun c hc => (hwhole c hc).1),
      linkSub_append_plain a _ (fun c hc => (plain_spec c (ha c hc)).2.1),
      linkSub_removes x u b (fun c hc => (plain_spec c (hx c hc)).2.2.1) hxne
        (fun c hc => (plain_spec c (hu c hc)).2.2.2.2.1) hune
        (fun c hc => (plain_spec c (hb c hc)).2.1),
      imageSub_of_free _ (fun c hc => (plain_spec c (haxb c hc)).2.2.2.2.2.2.2.1),
      codeSpanSub_of_free _ (fun c hc => (plain_spec c (haxb c hc)).2.2.2.2.2.1),
      hrhs]
  · have hwhole : ∀ c ∈ a ++ (backtick :: (x ++ (backtick :: b))),
        c ≠ '*' ∧ c ≠ '[' ∧ c ≠ '!' := by
      intro c hc
      rcases List.mem_append.mp hc with h | h
      · exact ⟨(plain_spec c (ha c h)).1, (plain_spec c (ha c h)).2.1,
          (plain_spec c (ha c h)).2.2.2.2.2.2.2.1⟩
      rcases List.mem_cons.mp h with h | h
      · subst h
        exact ⟨by decide, by decide, by decide⟩
      rcases List.mem_append.mp h with h | h
      · exact ⟨(plain_spec c (hx c h)).1, (plain_spec c (hx c h)).2.1,
          (plain_spec c (hx c h)).2.2.2.2.2.2.2.1⟩
      rcases List.mem_cons.mp h with h | h
      · subst h
        exact ⟨by decide, by decide, by decide⟩
      · exact ⟨(plain_spec c (hb c h)).1, (plain_spec c (hb c h)).2.1,
          (plain_spec c (hb c h)).2.2.2.2.2.2.2.1⟩
    rw [cleanForTTS,
      boldSub_of_free _ (fun c hc => (hwhole c hc).1),
      italicSub_of_free _ (fun c hc => (hwhole c hc).1),
      linkSub_of_free _ (fun c hc => (hwhole c hc).2.1),
      imageSub_of_free _ (fun c hc => (hwhole c hc).2.2),
      codeSpanSub_append_plain a _ (fun c hc => (plain_spec c (ha c hc)).2.2.2.2.2.1),
      codeSpanSub_removes x b (fun c hc => (plain_spec c (hx c hc)).2.2.2.2.2.1) hxne
        (fun c hc => (plain_spec c (hb c hc)).2.2.2.2.2.1),
      hrhs]

theorem c5_wellformed_markers_removed_witness :
    cleanForTTS (['p', ' '] ++ ('*' :: '*' :: (['q'] ++ ('*' :: '*' :: [' ', 'r']))))
        = cleanForTTS (['p', ' '] ++ (['q'] ++ [' ', 'r'])) ∧
    cleanForTTS (['p', ' '] ++ ('*' :: (['q'] ++ ('*' :: [' ', 'r']))))
        = cleanForTTS (['p', ' '] ++ (['q'] ++ [' ', 'r'])) ∧
    cleanForTTS (['p', ' '] ++
        ('[' :: (['q'] ++ (']' :: '(' :: (['u'] ++ (')' :: [' ', 'r']))))))
      = cleanForTTS (['p', ' '] ++ (['q'] ++ [' ', 'r'])) ∧
    cleanForTTS (['p', ' '] ++ (backtick :: (['q'] ++ (backtick :: [' ', 'r']))))
        = cleanForTTS (['p', ' '] ++ (['q'] ++ [' ', 'r'])) := by
  obtain ⟨h1, h2, h3, h4⟩ :=
    c5_wellformed_markers_removed ['p', ' '] ['q'] ['u'] [' ', 'r']
      (by decide) (by decide) (by decide) (by decide)
  exact ⟨h1, h2, h3 (by decide) (by decide), h4⟩

/-! ## C10: level-4-or-deeper headings -/

theorem rstrip_cons_not_ws (c : Char) (t : List Char) (h : isWs c = false) :
    rstrip (c :: t) = c :: rstrip t := by
  show ((c :: t).reverse.dropWhile isWs).reverse = c :: (t.reverse.dropWhile isWs).reverse
  rw [List.reverse_cons, List.dropWhile_append]
  by_cases he : (t.reverse.dropWhile isWs).isEmpty
  · rw [if_pos he]
    rw [List.isEmpty_iff] at he
    rw [he]
    simp [List.dropWhile_cons, h]
  · rw [if_neg he]
    simp

theorem strip_cons_not_ws (c : Char) (t : List Char) (h : isWs c = false) :
    strip (c :: t) = c :: rstrip t := by
  show (((c :: t).dropWhile isWs).reverse.dropWhile isWs).reverse = _
  rw [List.dropWhile_cons, if_neg (by simp [h])]
  exact rstrip_cons_not_ws c t h

theorem inlineSubs_hash4 (t : List Char) :
    codeSpanSub (imageSub (linkSub (italicSub (boldSub
        ('#' :: '#' :: '#' :: '#' :: t)))))
      = '#' :: '#' :: '#' :: '#' ::
          codeSpanSub (imageSub (linkSub (italicSub (boldSub t)))) := by
  rw [boldSub_cons_pass _ _ (by simp), boldSub_cons_pass _ _ (by simp),
    boldSub_cons_pass _ _ (by simp), boldSub_cons_pass _ _ (by simp),
    italicSub_cons_pass _ _ (by decide), italicSub_cons_pass _ _ (by decide),
    italicSub_cons_pass _ _ (by decide), italicSub_cons_pass _ _ (by decide),
    linkSub_cons_pass _ _ (by decide), linkSub_cons_pass _ _ (by decide),
    linkSub_cons_pass _ _ (by decide), linkSub_cons_pass _ _ (by decide),
    imageSub_cons_pass _ _ (by simp), imageSub_cons_pass _ _ (by simp),
    imageSub_cons_pass _ _ (by simp), imageSub_cons_pass _ _ (by simp),
    codeSpanSub_cons_pass _ _ (by decide), codeSpanSub_cons_pass _ _ (by decide),
    codeSpanSub_cons_pass _ _ (by decide), codeSpanSub_cons_pass _ _ (by decide)]

theorem splitLines_ne_nil (l : List Char) : splitLines l ≠ [] := by
  cases l with
  | nil => simp [splitLines]
  | cons c t =>
    rw [splitLines]
    by_cases h : c = '\n'
    · simp [h]
    · rw [if_neg h]
      rcases hr : splitLines t with _ | ⟨x, xs⟩ <;> simp

theorem hrSub_hash4 (r : List Char) :
    (hrSub ('#' :: '#' :: '#' :: '#' :: r)).take 4 = ['#', '#', '#', '#'] := by
  rcases hs : splitLines r with _ | ⟨L, LS⟩
  · exact absurd hs (splitLines_ne_nil r)
  have h1 : splitLines ('#' :: '#' :: '#' :: '#' :: r)
      = ('#' :: '#' :: '#' :: '#' :: L) :: LS := by
    simp [splitLines, hs]
  have hne : ¬(isHrLine ('#' :: '#' :: '#' :: '#' :: L) = true) := by
    simp [isHrLine]
  rw [hrSub, h1, List.map_cons, if_neg hne]
  rcases LS with _ | ⟨M0, MS0⟩
  · rw [List.map_nil, joinLines]
    simp [List.take]
  · rw [List.map_cons, joinLines]
    · simp [List.take]
    · simp

theorem collapseWs_cons_not_ws (c : Char) (t : List Char) (h : isWs c = false) :
    collapseWs (c :: t) = c :: collapseWs t := by
  rw [collapseWs.eq_def]
  simp [h]

theorem take_four_hash_shape (l : List Char) (h : l.take 4 = ['#', '#', '#', '#']) :
    ∃ t, l = '#' :: '#' :: '#' :: '#' :: t := by
  rcases l with _ | ⟨c1, _ | ⟨c2, _ | ⟨c3, _ | ⟨c4, t⟩⟩⟩⟩
  · simp [List.take] at h
  · simp [List.take] at h
  · simp [List.take] at h
  · simp [List.take] at h
  · simp [List.take] at h
    obtain ⟨rfl, rfl, rfl, rfl⟩ := h
    exact ⟨t, rfl⟩

theorem cleanForTTS_hash4 (t : List Char) :
    (cleanForTTS ('#' :: '#' :: '#' :: '#' :: t)).take 4 = ['#', '#', '#', '#'] := by
  rw [cleanForTTS, inlineSubs_hash4]
  obtain ⟨r2, hr2⟩ := take_four_hash_shape _ (hrSub_hash4
    (codeSpanSub (imageSub (linkSub (italicSub (boldSub t))))))
  rw [hr2]
  rw [collapseWs_cons_not_ws '#' _ (by decide), collapseWs_cons_not_ws '#' _ (by decide),
    collapseWs_cons_not_ws '#' _ (by decide), collapseWs_cons_not_ws '#' _ (by decide)]
  have hsb : stripBackslash ('#' :: '#' :: '#' :: '#' :: collapseWs r2)
      = '#' :: '#' :: '#' :: '#' :: stripBackslash (collapseWs r2) := by
    simp [stripBackslash]
  rw [hsb, strip_cons_not_ws '#' _ (by decide), rstrip_cons_not_ws '#' _ (by decide),
    rstrip_cons_not_ws '#' _ (by decide), rstrip_cons_not_ws '#' _ (by decide)]
  simp [List.take]

set_option maxHeartbeats 4000000 in
/-- C10 counterexample: the block `#### T` followed by the bullet line
`- x` starts with four `#` followed by whitespace, yet the parser emits a
single BULLET chunk for the bullet line and no PARAGRAPH chunk at all —
the `####` heading line is dropped, its text (and its `#` markers) absent
from the output. -/
theorem c10_counterexample_h4_bullet_block :
    (parseContentChunks {} 2000
        ['#', '#', '#', '#', ' ', 'T', '\n', '-', ' ', 'x']).map
        (fun ch => (ch.type, ch.text))
      = [(ChunkType.bullet, ['x'])] := by
  simp [parseContentChunks, splitBlocks, splitBlocksAux, codeBlockSub, findTriple,
    parseLoop, strip, processBlock, matchH1, matchH2, matchH3, matchTail,
    searchBullet, searchNumbered, lineStarts, tailsAfterNewline, matchBulletLine,
    matchNumberedLine, isBulletMarker, matchBlockquoteLine, createParagraphChunks,
    bulletChunksLoop, mkBulletChunk, splitLines,
    cleanForTTS, boldSub, italicSub, linkSub, imageSub, codeSpanSub, hrSub,
    joinLines, isHrLine, collapseWs, stripBackslash, isWs, backtick,
    mkParagraphChunk]

/-- C10 (amended): a block starting with four `#` characters matches none
of the h1/h2/h3 heading patterns; provided it also contains no bullet or
numbered line (otherwise the bullet branch takes over and drops the
heading line, see the counterexample), it is emitted as PARAGRAPH
chunk(s), and its cleaned text still starts with the four literal `#`
markers. -/
theorem c10_h4_heading_demoted (ps : ParserSettings) (maxSize startId : Nat)
    (block : List Char) (h4 : block.take 4 = ['#', '#', '#', '#'])
    (hbul : searchBullet block = false) (hnum : searchNumbered block = false) :
    processBlock ps maxSize block startId
        = createParagraphChunks ps maxSize startId (cleanForTTS block) block ∧
    (∀ ch ∈ processBlock ps maxSize block startId,
      ch.type = ChunkType.paragraph) ∧
    (cleanForTTS block).take 4 = ['#', '#', '#', '#'] := by
  obtain ⟨t, rfl⟩ := take_four_hash_shape block h4
  have hh1 : matchH1 ('#' :: '#' :: '#' :: '#' :: t) = none := by
    simp [matchH1, matchTail, isWs]
  have hh2 : matchH2 ('#' :: '#' :: '#' :: '#' :: t) = none := by
    simp [matchH2, matchTail, isWs]
  have hh3 : matchH3 ('#' :: '#' :: '#' :: '#' :: t) = none := by
    simp [matchH3, matchTail, isWs]
  have hbq : matchBlockquoteLine ('#' :: '#' :: '#' :: '#' :: t) = none := by
    simp [matchBlockquoteLine]
  have hpb : processBlock ps maxSize ('#' :: '#' :: '#' :: '#' :: t) startId
      = createParagraphChunks ps maxSize startId
          (cleanForTTS ('#' :: '#' :: '#' :: '#' :: t))
          ('#' :: '#' :: '#' :: '#' :: t) := by
    simp [processBlock, hh1, hh2, hh3, hbul, hnum, hbq]
  refine ⟨hpb, ?_, cleanForTTS_hash4 t⟩
  intro ch hch
  rw [hpb, createParagraphChunks] at hch
  split at hch
  · simp at hch
    subst hch
    rfl
  · exact (packChunks_mem ps maxSize _ startId [] (by simp) ch hch).1

theorem c10_h4_heading_demoted_witness :
    processBlock {} 2000 ['#', '#', '#', '#', ' ', 'T'] 0
        = createParagraphChunks {} 2000 0
            (cleanForTTS ['#', '#', '#', '#', ' ', 'T'])
            ['#', '#', '#', '#', ' ', 'T'] ∧
    (cleanForTTS ['#', '#', '#', '#', ' ', 'T']).take 4 = ['#', '#', '#', '#'] := by
  obtain ⟨h1, _, h3⟩ := c10_h4_heading_demoted {} 2000 0
    ['#', '#', '#', '#', ' ', 'T'] (by decide) (by decide) (by decide)
  exact ⟨h1, h3⟩
